import Mathlib

/-!
# Cache-timing oracle: `side_channel.cpp` and `spectre_v1.cpp`

A shallow embedding of the two `leak_byte` functions and of the helper
`top_two_indices`.

Modelling conventions

* `std::array<T, 256>` is a `List Int` of length 256; `arr_get` and `arr_set` are `a[i]`
  and `a[i] = v`.
* `read_tsc() - start`, the one input that comes from the hardware, is a parameter
  `timer run slot`: the latency measured in round `run` when slot `slot` of the timing
  array is reloaded.
* `int64_t` / `uint64_t` arithmetic of the latency sum wraps modulo `2^64`
  (`wrapI64`, `wrapU64`; for the signed sum, whose overflow C++ leaves undefined, this is
  the two's complement result); `/` on signed operands truncates towards zero
  (`Int.tdiv`).
* `int` score arithmetic is exact: an entry is incremented at most once per round and
  there are at most 100 rounds.
* `char` is signed (x86, both tool chains the source supports): `data[k]` is the byte at
  offset `k` read as a value in `-128..127`.
* `force_read` and `_mm_clflush` change no program variable; the encode step is therefore
  visible in the embedding only as the list of its reads (`encode_reads`).
* `text` is non-empty wherever `run % text.size()` is evaluated, as in every call the
  source makes.
-/

/-- Two's complement value of an `int64_t` computation. -/
def wrapI64 (x : Int) : Int := (x + 2 ^ 63) % 2 ^ 64 - 2 ^ 63

/-- Value of a `uint64_t` computation. -/
def wrapU64 (x : Int) : Int := x % 2 ^ 64

/-- Conversion `char(x)` of an integer to the signed 8-bit `char`. -/
def toChar (x : Int) : Int := (x + 128) % 256 - 128

/-- The loop `for (i = 0; i < n; i++) s = body i s`. -/
def forRange {σ : Type} : Nat → (Nat → σ → σ) → σ → σ
  | 0, _, s => s
  | n + 1, body, s => body n (forRange n body s)

/-- The read `a[i]` of an array. -/
def arr_get (a : List Int) (i : Nat) : Int := a.getD i 0

/-- The assignment `a[i] = v` on an array. -/
def arr_set (a : List Int) (i : Nat) (v : Int) : List Int := a.set i v

/-- A value-initialised `std::array<T, 256> a{}`. -/
def arr_zero : List Int := List.replicate 256 0

/-- A `std::string_view`: `mem k` is the byte stored `k` bytes from `&text[0]`
(inside the view for `0 ≤ k < size`, adjacent memory otherwise). -/
structure string_view where
  mem : Int → Nat
  size : Nat

/-- The expression `data[k]` with `const char* data = &text[0]`. -/
def string_view.data (text : string_view) (k : Int) : Int := toChar (text.mem k)

/-- A view over the bytes `bytes`, followed in memory by the bytes `adjacent`; every other
byte of memory is 0. -/
def string_view.ofBytes (bytes adjacent : List Nat) : string_view :=
  ⟨fun k => if 0 ≤ k then (bytes ++ adjacent).getD k.toNat 0 else 0, bytes.length⟩

/-- The constant `constexpr auto stride = 512`. -/
def stride : Int := 512

/-- The constant `constexpr auto timing_array_size = 256`. -/
def timing_array_size : Nat := 256

/-- The constant `constexpr auto data_dependent_reads = 100`. -/
def data_dependent_reads : Nat := 100

/-- The body of the loop of `top_two_indices`, on the pair `(j, k)`. -/
def top_two_step (range : List Int) (i : Nat) (jk : Nat × Nat) : Nat × Nat :=
  if arr_get range i > arr_get range jk.1 then (i, jk.1)
  else if arr_get range i > arr_get range jk.2 then (jk.1, i)
  else jk

/-- The function `top_two_indices(range)`: `j = 0, k = 0`, then the loop over `i < range.size()`. -/
def top_two_indices (range : List Int) : Nat × Nat :=
  forRange range.length (top_two_step range) (0, 0)

/-- The probe order `int mixed_i = ((i * 167) + 13) & 0xff`. -/
def mixed_i (i : Nat) : Nat := ((i * 167) + 13) &&& 0xff

/-- The measure loop: `latencies[mixed_i] = read_tsc() - start` for `i = 0..255`. -/
def measure_step (timer : Nat → Nat → Int) (run : Nat) (latencies : List Int) : List Int :=
  forRange timing_array_size
    (fun i lat => arr_set lat (mixed_i i) (timer run (mixed_i i))) latencies

/-- The offset `data[index] * stride` into `timing_array` that the encode step reads. -/
def touched_offset (text : string_view) (index : Int) : Int := text.data index * stride

/-- The variables of `leak_byte` that live across rounds. -/
structure LoopState where
  latencies : List Int
  scores : List Int
  best_value : Nat
  runner_up_value : Nat

/-- The state before the first round: `latencies{}`, `scores{}`, `best_value = 0`,
`runner_up_value = 0`. -/
def LoopState.init : LoopState := ⟨arr_zero, arr_zero, 0, 0⟩

/-- The test `scores[best_value] > (2 * scores[runner_up_value] + 400)`. -/
def margin (st : LoopState) : Bool :=
  decide (arr_get st.scores st.best_value > 2 * arr_get st.scores st.runner_up_value + 400)

/-- How the round loop was left: the state, the number of rounds executed, and whether
it was left through `break` (`Confident`) or by `run < 100` failing (`Exhausted`). -/
structure Outcome where
  state : LoopState
  runs : Nat
  confident : Bool

/-- The loop `for (run ...; run < 100; ++run) { body; if (margin) break; }` with `n`
rounds left before the cap. -/
def run_loop (body : Nat → LoopState → LoopState) : Nat → Nat → LoopState → Outcome
  | 0, run, st => ⟨st, run, false⟩
  | n + 1, run, st =>
    let st' := body run st
    if margin st' then ⟨st', run + 1, true⟩ else run_loop body n (run + 1) st'

/-- The state after `n` rounds starting at round `run` when no round takes the `break`. -/
def rounds_no_break (body : Nat → LoopState → LoopState) : Nat → Nat → LoopState → LoopState
  | 0, _, st => st
  | n + 1, run, st => rounds_no_break body n (run + 1) (body run st)

namespace side_channel

/-- The sum `std::accumulate(latencies.begin(), latencies.end(), (int64_t)0)`. -/
def accumulate (latencies : List Int) : Int :=
  latencies.foldl (fun acc x => wrapI64 (acc + x)) 0

/-- The mean `int64_t avg_latency{ accumulate(...) / timing_array_size }`. -/
def avg_latency (latencies : List Int) : Int :=
  Int.tdiv (accumulate latencies) timing_array_size

/-- The score loop: `if (latencies[i] < (avg_latency * 3 / 4)) ++scores[i];`. -/
def score_step (latencies scores : List Int) : List Int :=
  let avg := avg_latency latencies
  forRange timing_array_size
    (fun i sc =>
      if arr_get latencies i < Int.tdiv (avg * 3) 4 then arr_set sc i (arr_get sc i + 1)
      else sc)
    scores

/-- The indices `k` of the reads `data[k]` of one encode step: 100 times `data[index]`. -/
def encode_reads (index : Int) : List Int :=
  List.replicate data_dependent_reads index

/-- One round of the loop body, up to and including `std::tie(...) = top_two_indices`. -/
def round (timer : Nat → Nat → Int) (run : Nat) (st : LoopState) : LoopState :=
  let latencies := measure_step timer run st.latencies
  let scores := score_step latencies st.scores
  let jk := top_two_indices scores
  ⟨latencies, scores, jk.1, jk.2⟩

/-- The round loop of `leak_byte`. -/
def leak_byte_loop (timer : Nat → Nat → Int) : Outcome :=
  run_loop (round timer) 100 0 LoopState.init

/-- The function `char leak_byte(std::string_view text, int index)` of `side_channel.cpp`. -/
def leak_byte (_text : string_view) (_index : Int) (timer : Nat → Nat → Int) : Int :=
  toChar (leak_byte_loop timer).state.best_value

end side_channel

namespace spectre_v1

/-- The sum `std::accumulate(latencies.begin(), latencies.end(), (uint64_t)0)`. -/
def accumulate (latencies : List Int) : Int :=
  latencies.foldl (fun acc x => wrapU64 (acc + x)) 0

/-- The mean `int64_t avg_latency = accumulate(...) / timing_array_size` (unsigned division,
then conversion to `int64_t`). -/
def avg_latency (latencies : List Int) : Int :=
  wrapI64 (accumulate latencies / timing_array_size)

/-- The index `int safe_index = run % text.size()`. -/
def safe_index (text : string_view) (run : Nat) : Nat := run % text.size

/-- The index `int local_index = ((i + 1) % 10) ? safe_index : index`. -/
def local_index (text : string_view) (index : Int) (run i : Nat) : Int :=
  if (i + 1) % 10 ≠ 0 then (safe_index text run : Int) else index

/-- The indices `k` of the reads `data[k]` that one encode step executes, in order:
100 times `data[index]`, then `data[local_index]` for each of the 500 iterations in which
`local_index < *size_in_heap` holds. -/
def encode_reads (text : string_view) (index : Int) (run : Nat) : List Int :=
  List.replicate data_dependent_reads index ++
    (List.range 500).filterMap
      (fun i =>
        if local_index text index run i < (text.size : Int) then
          some (local_index text index run i)
        else none)

/-- The score loop:
`if (latencies[i] < (avg_latency * 3 / 4) && i != data[safe_index]) scores[i]++;`. -/
def score_step (text : string_view) (run : Nat) (latencies scores : List Int) : List Int :=
  let avg := avg_latency latencies
  forRange timing_array_size
    (fun i sc =>
      if arr_get latencies i < Int.tdiv (avg * 3) 4
          ∧ (i : Int) ≠ text.data (safe_index text run) then
        arr_set sc i (arr_get sc i + 1)
      else sc)
    scores

/-- One round of the loop body, up to and including `std::tie(...) = top_two_indices`. -/
def round (text : string_view) (timer : Nat → Nat → Int) (run : Nat) (st : LoopState) :
    LoopState :=
  let latencies := measure_step timer run st.latencies
  let scores := score_step text run latencies st.scores
  let jk := top_two_indices scores
  ⟨latencies, scores, jk.1, jk.2⟩

/-- The round loop of `leak_byte`. -/
def leak_byte_loop (text : string_view) (timer : Nat → Nat → Int) : Outcome :=
  run_loop (round text timer) 100 0 LoopState.init

/-- The function `char leak_byte(std::string_view text, int index)` of `spectre_v1.cpp`. -/
def leak_byte (text : string_view) (_index : Int) (timer : Nat → Nat → Int) : Int :=
  toChar (leak_byte_loop text timer).state.best_value

end spectre_v1

/-- The view `text_table[1]` = "Hello GitHub" that `main` of `spectre_v1.cpp` passes to
`leak_byte`, followed in memory by its terminator and by `text_table[2]` =
"This is my secret!"; `main` starts at `index = &text_table[2][0] - &text_table[1][0]`,
which is 13 in this layout. -/
def spectre_v1.text_table_1 : string_view :=
  string_view.ofBytes [72, 101, 108, 108, 111, 32, 71, 105, 116, 72, 117, 98]
    [0, 84, 104, 105, 115, 32, 105, 115, 32, 109, 121, 32, 115, 101, 99, 114, 101, 116, 33, 0]

/-- The noiseless timing model of the speculative scenario: in round `run` the slot of the
target byte `data[index]` and the slot of the training byte `data[safe_index]` measure
`low`, every other slot `high`. -/
def spectre_v1.ideal_timer (text : string_view) (index : Int) (low high : Int) :
    Nat → Nat → Int :=
  fun run slot =>
    if (slot : Int) = text.data index
        ∨ (slot : Int) = text.data (spectre_v1.safe_index text run) then low
    else high

/-- A safe view "Hello" of length 5; the byte 3 bytes past its end, at index 8, is
'S' = 83. -/
def spectre_v1.view_hello : string_view :=
  string_view.ofBytes [72, 101, 108, 108, 111] [0, 0, 0, 83]

/-- A safe view "AAAAA" of length 5; the byte 3 bytes past its end, at index 8, is
'A' = 65 as well. -/
def spectre_v1.view_same_bytes : string_view :=
  string_view.ofBytes [65, 65, 65, 65, 65] [0, 0, 0, 65]

/-- The arrays have their 256 entries and every score lies between 0 and `k`: what holds of
the state after `k` rounds. -/
def ScoreInv (k : Nat) (st : LoopState) : Prop :=
  st.latencies.length = 256 ∧ st.scores.length = 256 ∧
    ∀ i, 0 ≤ arr_get st.scores i ∧ arr_get st.scores i ≤ k

/-- Modelled from the spec: the cache-set index of a byte offset, `(a / 64) mod 64`, for
the geometry that the comment above `leak_byte` in `side_channel.cpp` documents (64-byte
lines, 64 lines per way, 8 ways). The source holds no function that computes it. -/
def cache_set (a : Int) : Int := (a / 64) % 64

namespace leak

/-- The lines that `main` of `leak.cpp` writes to `std::cerr`. -/
inductive Diagnostic
  | text_buffer_index (text_index : Int)
  | only_two_buffers_public
  | length (length : Int)
  | buffer_is_only (size : Nat)
  deriving DecidableEq

/-- The table `constexpr std::string_view text_table[]`. -/
def text_table : List String := ["Hello", "Hello, CppCon!", "It's a s3kr3t!"]

/-- What a run of `main` does: it ends with an exit code, having written `stderr` and, when
`stdout` is `(entry, count)`, the `count` characters that start at `&text_table[entry][0]`;
or it evaluates `text_table[text_index]` outside the array, which is undefined. -/
inductive Run
  | exited (code : Int) (stderr : List Diagnostic) (stdout : Option (Nat × Int))
  | undefined_table_read (text_index : Int) (stderr : List Diagnostic)
  deriving DecidableEq

/-- The function `int main(int argc, char** argv)` of `leak.cpp`; `args` are the values
`std::stoi` returns for `argv[1]`, `argv[2]`, ..., so `argc = args.length + 1`.
`text.size() - length` is computed in `size_t`. -/
def main (args : List Int) : Run :=
  let text_index : Int := if args.length + 1 > 1 then args.getD 0 0 else 0
  let err0 := [Diagnostic.text_buffer_index text_index]
  if text_index > 1 then
    Run.exited 1 (err0 ++ [Diagnostic.only_two_buffers_public]) none
  else if text_index < 0 then
    Run.undefined_table_read text_index err0
  else
    let text := text_table.getD text_index.toNat ""
    let length : Int := if args.length + 1 > 2 then args.getD 1 0 else (text.length : Int)
    let err1 := err0 ++ [Diagnostic.length length]
    if wrapU64 ((text.length : Int) - length) < 0 then
      Run.exited 1 (err1 ++ [Diagnostic.buffer_is_only text.length]) none
    else
      Run.exited 0 err1 (some (text_index.toNat, wrapU64 length))

end leak

/-! ## Arrays and loops -/

theorem arr_set_length (a : List Int) (i : Nat) (v : Int) :
    (arr_set a i v).length = a.length := by
  simp [arr_set]

theorem arr_get_set (a : List Int) (i : Nat) (v : Int) (j : Nat) :
    arr_get (arr_set a i v) j = if j = i ∧ i < a.length then v else arr_get a j := by
  unfold arr_get arr_set
  rw [List.getD_eq_getElem?_getD, List.getD_eq_getElem?_getD, List.getElem?_set]
  by_cases hji : i = j
  · subst hji
    by_cases hlt : i < a.length
    · simp [hlt]
    · simp [hlt, List.getElem?_eq_none (Nat.le_of_not_lt hlt)]
  · have hne : ¬ j = i := fun h => hji h.symm
    simp [hji, hne]

theorem arr_get_of_length_le (a : List Int) (i : Nat) (h : a.length ≤ i) : arr_get a i = 0 := by
  unfold arr_get
  rw [List.getD_eq_getElem?_getD, List.getElem?_eq_none h]
  rfl

theorem arr_ext (a b : List Int) (hlen : a.length = b.length)
    (h : ∀ i, i < a.length → arr_get a i = arr_get b i) : a = b := by
  apply List.ext_getElem hlen
  intro i h1 h2
  have := h i h1
  unfold arr_get at this
  rw [List.getD_eq_getElem?_getD, List.getD_eq_getElem?_getD, List.getElem?_eq_getElem h1,
    List.getElem?_eq_getElem h2] at this
  simpa using this

theorem arr_zero_length : arr_zero.length = 256 := by
  rw [arr_zero, List.length_replicate]

theorem arr_get_zero (i : Nat) : arr_get arr_zero i = 0 := by
  unfold arr_get arr_zero
  rw [List.getD_eq_getElem?_getD, List.getElem?_replicate]
  by_cases h : i < 256
  · rw [if_pos h]; rfl
  · rw [if_neg h]; rfl

theorem forRange_succ {σ : Type} (n : Nat) (body : Nat → σ → σ) (s : σ) :
    forRange (n + 1) body s = body n (forRange n body s) := rfl

/-! ## `top_two_indices` -/

theorem top_two_upto (range : List Int) (n : Nat) :
    let jk := forRange n (top_two_step range) (0, 0)
    (jk.1 < max n 1 ∧ jk.2 < max n 1) ∧
    (∀ t, t < n → arr_get range t ≤ arr_get range jk.1) ∧
    (∀ t, t < n → t ≠ jk.1 → arr_get range t ≤ arr_get range jk.2) ∧
    (∀ t, t < jk.1 → arr_get range t < arr_get range jk.1) ∧
    (jk.1 = jk.2 → jk.1 = 0) := by
  induction n with
  | zero => simp [forRange]
  | succ n ih =>
    rw [forRange_succ]
    generalize forRange n (top_two_step range) (0, 0) = jk at ih
    obtain ⟨j, k⟩ := jk
    simp only at ih
    obtain ⟨⟨hj, hk⟩, hmax, hsnd, hfirst, hdiag⟩ := ih
    have hj1 : j ≤ n := by omega
    have hk1 : k ≤ n := by omega
    unfold top_two_step
    simp only
    by_cases h1 : arr_get range n > arr_get range j
    · rw [if_pos h1]
      refine ⟨⟨by simp, by simp; omega⟩, ?_, ?_, ?_, ?_⟩
      · intro t ht
        rcases Nat.lt_succ_iff_lt_or_eq.mp ht with h | h
        · have := hmax t h; simp only; omega
        · subst h; simp
      · intro t ht hne
        simp only at hne ⊢
        have : t < n := by omega
        exact hmax t this
      · intro t ht
        simp only at ht ⊢
        have := hmax t ht
        omega
      · intro h
        simp only at h ⊢
        subst h
        omega
    · rw [if_neg h1]
      by_cases h2 : arr_get range n > arr_get range k
      · rw [if_pos h2]
        refine ⟨⟨by simp; omega, by simp⟩, ?_, ?_, ?_, ?_⟩
        · intro t ht
          rcases Nat.lt_succ_iff_lt_or_eq.mp ht with h | h
          · exact hmax t h
          · subst h; simp only; omega
        · intro t ht hne
          simp only at hne ⊢
          rcases Nat.lt_succ_iff_lt_or_eq.mp ht with h | h
          · have := hsnd t h hne; omega
          · subst h; exact le_refl _
        · exact hfirst
        · intro h
          simp only at h
          subst h
          omega
      · rw [if_neg h2]
        refine ⟨⟨by simp; omega, by simp; omega⟩, ?_, ?_, hfirst, hdiag⟩
        · intro t ht
          rcases Nat.lt_succ_iff_lt_or_eq.mp ht with h | h
          · exact hmax t h
          · subst h; simp only; omega
        · intro t ht hne
          simp only at hne ⊢
          rcases Nat.lt_succ_iff_lt_or_eq.mp ht with h | h
          · exact hsnd t h hne
          · subst h; omega

theorem top_two_lt (range : List Int) (h : 0 < range.length) :
    (top_two_indices range).1 < range.length ∧ (top_two_indices range).2 < range.length := by
  have := (top_two_upto range range.length).1
  simp only at this
  unfold top_two_indices
  have hm : max range.length 1 = range.length := by omega
  rw [hm] at this
  exact this

theorem top_two_best_ge (range : List Int) (t : Nat) (ht : t < range.length) :
    arr_get range t ≤ arr_get range (top_two_indices range).1 :=
  (top_two_upto range range.length).2.1 t ht

theorem top_two_best_eq (range : List Int) (b : Nat) (hb : b < range.length)
    (h : ∀ i, i < range.length → i ≠ b → arr_get range i < arr_get range b) :
    (top_two_indices range).1 = b := by
  by_contra hne
  have h1 := (top_two_lt range (by omega)).1
  have h2 := h _ h1 hne
  have h3 := (top_two_upto range range.length).2.1 b hb
  unfold top_two_indices at h2
  simp only at h3
  omega

/-! ## The measure step -/

theorem mixed_i_eq (i : Nat) : mixed_i i = (i * 167 + 13) % 256 := by
  unfold mixed_i
  exact Nat.and_pow_two_sub_one_eq_mod (i * 167 + 13) 8

theorem mixed_i_lt (i : Nat) : mixed_i i < 256 := by
  rw [mixed_i_eq]; omega

theorem mixed_i_injective (i j : Nat) (hi : i < 256) (hj : j < 256)
    (h : mixed_i i = mixed_i j) : i = j := by
  rw [mixed_i_eq, mixed_i_eq] at h
  omega

theorem mixed_i_surjective (s : Nat) (hs : s < 256) :
    ((s + 243) * 23) % 256 < 256 ∧ mixed_i (((s + 243) * 23) % 256) = s := by
  rw [mixed_i_eq]
  omega

theorem measure_upto (timer : Nat → Nat → Int) (run : Nat) (lat : List Int) (n : Nat) :
    let out := forRange n (fun i l => arr_set l (mixed_i i) (timer run (mixed_i i))) lat
    out.length = lat.length ∧
    ∀ s, s < lat.length →
      ((∃ i, i < n ∧ mixed_i i = s) → arr_get out s = timer run s) ∧
      ((∀ i, i < n → mixed_i i ≠ s) → arr_get out s = arr_get lat s) := by
  induction n with
  | zero => simp [forRange]
  | succ n ih =>
    rw [forRange_succ]
    generalize forRange n (fun i l => arr_set l (mixed_i i) (timer run (mixed_i i))) lat = out
      at ih
    simp only at ih ⊢
    obtain ⟨hlen, hget⟩ := ih
    refine ⟨by rw [arr_set_length, hlen], ?_⟩
    intro s hs
    obtain ⟨hw, hu⟩ := hget s hs
    rw [arr_get_set]
    by_cases hn : mixed_i n = s
    · constructor
      · intro _
        rw [if_pos ⟨hn.symm, by rw [hn, hlen]; exact hs⟩, hn]
      · intro hall
        exact absurd hn (hall n (Nat.lt_succ_self n))
    · have hne : ¬ (s = mixed_i n ∧ mixed_i n < out.length) := fun h => hn h.1.symm
      rw [if_neg hne]
      constructor
      · rintro ⟨i, hi, hmi⟩
        rcases Nat.lt_succ_iff_lt_or_eq.mp hi with h | h
        · exact hw ⟨i, h, hmi⟩
        · subst h; exact absurd hmi hn
      · intro hall
        exact hu (fun i hi => hall i (Nat.lt_succ_of_lt hi))

theorem measure_step_length (timer : Nat → Nat → Int) (run : Nat) (lat : List Int) :
    (measure_step timer run lat).length = lat.length :=
  (measure_upto timer run lat timing_array_size).1

theorem measure_step_get (timer : Nat → Nat → Int) (run : Nat) (lat : List Int)
    (hlen : lat.length = 256) (s : Nat) (hs : s < 256) :
    arr_get (measure_step timer run lat) s = timer run s := by
  have h := ((measure_upto timer run lat timing_array_size).2 s (by omega)).1
  apply h
  exact ⟨_, (mixed_i_surjective s hs).1, (mixed_i_surjective s hs).2⟩

theorem measure_step_eq (timer : Nat → Nat → Int) (run : Nat) (lat : List Int)
    (hlen : lat.length = 256) :
    measure_step timer run lat = (List.range 256).map (timer run) := by
  apply arr_ext
  · rw [measure_step_length, hlen]; simp
  · intro i hi
    rw [measure_step_length, hlen] at hi
    rw [measure_step_get timer run lat hlen i hi]
    unfold arr_get
    rw [List.getD_eq_getElem?_getD]
    simp [hi]

/-! ## The score step -/

theorem incr_upto (c : Nat → Prop) [DecidablePred c] (sc : List Int) (n : Nat) :
    let out := forRange n (fun i s => if c i then arr_set s i (arr_get s i + 1) else s) sc
    out.length = sc.length ∧
    ∀ j, arr_get out j =
      if j < n ∧ j < sc.length ∧ c j then arr_get sc j + 1 else arr_get sc j := by
  induction n with
  | zero => simp [forRange]
  | succ n ih =>
    rw [forRange_succ]
    generalize forRange n (fun i s => if c i then arr_set s i (arr_get s i + 1) else s) sc = out
      at ih
    simp only at ih ⊢
    obtain ⟨hlen, hget⟩ := ih
    by_cases hc : c n
    · rw [if_pos hc]
      refine ⟨by rw [arr_set_length, hlen], ?_⟩
      intro j
      rw [arr_get_set, hget j, hget n, hlen]
      by_cases hj : j = n
      · subst hj
        by_cases hl : j < sc.length
        · simp [hl, hc]
        · simp [hl]
      · have h1 : ¬ (j = n ∧ n < sc.length) := fun h => hj h.1
        rw [if_neg h1]
        have h2 : (j < n + 1 ∧ j < sc.length ∧ c j) ↔ (j < n ∧ j < sc.length ∧ c j) := by
          constructor
          · rintro ⟨a, b⟩; exact ⟨by omega, b⟩
          · rintro ⟨a, b⟩; exact ⟨by omega, b⟩
        simp only [h2]
    · rw [if_neg hc]
      refine ⟨hlen, ?_⟩
      intro j
      rw [hget j]
      have h2 : (j < n + 1 ∧ j < sc.length ∧ c j) ↔ (j < n ∧ j < sc.length ∧ c j) := by
        constructor
        · rintro ⟨a, b, d⟩
          refine ⟨?_, b, d⟩
          rcases Nat.lt_succ_iff_lt_or_eq.mp a with h | h
          · exact h
          · subst h; exact absurd d hc
        · rintro ⟨a, b⟩; exact ⟨by omega, b⟩
      simp only [h2]

theorem wrapI64_of_range (x : Int) (h0 : -(2 ^ 63) ≤ x) (h1 : x < 2 ^ 63) : wrapI64 x = x := by
  unfold wrapI64
  norm_num at h0 h1 ⊢
  omega

theorem wrapI64_add_left (a y : Int) : wrapI64 (wrapI64 a + y) = wrapI64 (a + y) := by
  unfold wrapI64
  norm_num
  omega

theorem wrapU64_add_left (a y : Int) : wrapU64 (wrapU64 a + y) = wrapU64 (a + y) := by
  unfold wrapU64
  norm_num

theorem foldl_wrapI64 (l : List Int) (a : Int) :
    l.foldl (fun acc x => wrapI64 (acc + x)) (wrapI64 a) = wrapI64 (a + l.sum) := by
  induction l generalizing a with
  | nil => simp
  | cons x l ih =>
    rw [List.foldl_cons, ih (wrapI64 a + x), List.sum_cons, ← add_assoc,
      ← wrapI64_add_left (wrapI64 a + x), wrapI64_add_left a x, wrapI64_add_left]

theorem foldl_wrapU64 (l : List Int) (a : Int) :
    l.foldl (fun acc x => wrapU64 (acc + x)) (wrapU64 a) = wrapU64 (a + l.sum) := by
  induction l generalizing a with
  | nil => simp
  | cons x l ih =>
    rw [List.foldl_cons, ih (wrapU64 a + x), List.sum_cons, ← add_assoc,
      ← wrapU64_add_left (wrapU64 a + x), wrapU64_add_left a x, wrapU64_add_left]

theorem side_channel.direct_accumulate_eq (l : List Int) :
    side_channel.accumulate l = wrapI64 l.sum := by
  have h := foldl_wrapI64 l 0
  have h0 : wrapI64 0 = 0 := by unfold wrapI64; norm_num
  rw [h0, zero_add] at h
  exact h

theorem spectre_v1.speculative_accumulate_eq (l : List Int) :
    spectre_v1.accumulate l = wrapU64 l.sum := by
  have h := foldl_wrapU64 l 0
  have h0 : wrapU64 0 = 0 := by unfold wrapU64; norm_num
  rw [h0, zero_add] at h
  exact h

theorem side_channel.direct_score_step_spec (lat sc : List Int) :
    (side_channel.score_step lat sc).length = sc.length ∧
    ∀ j, arr_get (side_channel.score_step lat sc) j =
      if j < 256 ∧ j < sc.length ∧
          arr_get lat j < Int.tdiv (side_channel.avg_latency lat * 3) 4 then
        arr_get sc j + 1
      else arr_get sc j :=
  incr_upto (fun i => arr_get lat i < Int.tdiv (side_channel.avg_latency lat * 3) 4) sc 256

theorem spectre_v1.speculative_score_step_spec (text : string_view) (run : Nat) (lat sc : List Int) :
    (spectre_v1.score_step text run lat sc).length = sc.length ∧
    ∀ j, arr_get (spectre_v1.score_step text run lat sc) j =
      if j < 256 ∧ j < sc.length ∧
          (arr_get lat j < Int.tdiv (spectre_v1.avg_latency lat * 3) 4 ∧
            (j : Int) ≠ text.data (spectre_v1.safe_index text run)) then
        arr_get sc j + 1
      else arr_get sc j :=
  incr_upto (fun i => arr_get lat i < Int.tdiv (spectre_v1.avg_latency lat * 3) 4 ∧
    (i : Int) ≠ text.data (spectre_v1.safe_index text run)) sc 256

/-! ## The round loop -/

theorem ScoreInv_init : ScoreInv 0 LoopState.init := by
  refine ⟨arr_zero_length, arr_zero_length, ?_⟩
  intro i
  show 0 ≤ arr_get arr_zero i ∧ arr_get arr_zero i ≤ ((0 : Nat) : Int)
  rw [arr_get_zero]
  simp

theorem margin_false_of_inv (k : Nat) (st : LoopState) (h : ScoreInv k st) (hk : k ≤ 400) :
    margin st = false := by
  unfold margin
  have h1 := (h.2.2 st.best_value).2
  have h2 := (h.2.2 st.runner_up_value).1
  have h3 : (k : Int) ≤ 400 := by exact_mod_cast hk
  simp only [decide_eq_false_iff_not]
  omega

theorem side_channel.direct_round_latencies (timer : Nat → Nat → Int) (run : Nat) (st : LoopState) :
    (side_channel.round timer run st).latencies = measure_step timer run st.latencies := by
  simp only [side_channel.round, spectre_v1.round]

theorem side_channel.direct_round_scores (timer : Nat → Nat → Int) (run : Nat) (st : LoopState) :
    (side_channel.round timer run st).scores =
      side_channel.score_step (measure_step timer run st.latencies) st.scores := by
  simp only [side_channel.round, spectre_v1.round]

theorem side_channel.direct_round_best (timer : Nat → Nat → Int) (run : Nat) (st : LoopState) :
    (side_channel.round timer run st).best_value =
      (top_two_indices (side_channel.round timer run st).scores).1 := by
  simp only [side_channel.round, spectre_v1.round]

theorem side_channel.direct_round_runner_up (timer : Nat → Nat → Int) (run : Nat) (st : LoopState) :
    (side_channel.round timer run st).runner_up_value =
      (top_two_indices (side_channel.round timer run st).scores).2 := by
  simp only [side_channel.round, spectre_v1.round]

theorem spectre_v1.speculative_round_latencies (text : string_view) (timer : Nat → Nat → Int) (run : Nat)
    (st : LoopState) :
    (spectre_v1.round text timer run st).latencies = measure_step timer run st.latencies := by
  simp only [side_channel.round, spectre_v1.round]

theorem spectre_v1.speculative_round_scores (text : string_view) (timer : Nat → Nat → Int) (run : Nat)
    (st : LoopState) :
    (spectre_v1.round text timer run st).scores =
      spectre_v1.score_step text run (measure_step timer run st.latencies) st.scores := by
  simp only [side_channel.round, spectre_v1.round]

theorem spectre_v1.speculative_round_best (text : string_view) (timer : Nat → Nat → Int) (run : Nat)
    (st : LoopState) :
    (spectre_v1.round text timer run st).best_value =
      (top_two_indices (spectre_v1.round text timer run st).scores).1 := by
  simp only [side_channel.round, spectre_v1.round]

theorem spectre_v1.speculative_round_runner_up (text : string_view) (timer : Nat → Nat → Int) (run : Nat)
    (st : LoopState) :
    (spectre_v1.round text timer run st).runner_up_value =
      (top_two_indices (spectre_v1.round text timer run st).scores).2 := by
  simp only [side_channel.round, spectre_v1.round]

theorem side_channel.direct_round_inv (timer : Nat → Nat → Int) (run k : Nat) (st : LoopState)
    (h : ScoreInv k st) : ScoreInv (k + 1) (side_channel.round timer run st) := by
  obtain ⟨hl, hs, hb⟩ := h
  refine ⟨?_, ?_, ?_⟩
  · rw [side_channel.direct_round_latencies, measure_step_length]; exact hl
  · rw [side_channel.direct_round_scores, (side_channel.direct_score_step_spec _ _).1]; exact hs
  · intro i
    rw [side_channel.direct_round_scores, (side_channel.direct_score_step_spec _ _).2 i]
    have := hb i
    push_cast
    split <;> omega

theorem spectre_v1.speculative_round_inv (text : string_view) (timer : Nat → Nat → Int) (run k : Nat)
    (st : LoopState) (h : ScoreInv k st) :
    ScoreInv (k + 1) (spectre_v1.round text timer run st) := by
  obtain ⟨hl, hs, hb⟩ := h
  refine ⟨?_, ?_, ?_⟩
  · rw [spectre_v1.speculative_round_latencies, measure_step_length]; exact hl
  · rw [spectre_v1.speculative_round_scores, (spectre_v1.speculative_score_step_spec _ _ _ _).1]; exact hs
  · intro i
    rw [spectre_v1.speculative_round_scores, (spectre_v1.speculative_score_step_spec _ _ _ _).2 i]
    have := hb i
    push_cast
    split <;> omega

theorem rounds_no_break_succ (body : Nat → LoopState → LoopState) (n run : Nat)
    (st : LoopState) :
    rounds_no_break body (n + 1) run st = body (run + n) (rounds_no_break body n run st) := by
  induction n generalizing run st with
  | zero => simp [rounds_no_break]
  | succ n ih =>
    rw [rounds_no_break, ih (run + 1) (body run st)]
    have : run + 1 + n = run + (n + 1) := by omega
    rw [this]
    rfl

theorem rounds_no_break_inv (body : Nat → LoopState → LoopState)
    (hbody : ∀ run k st, ScoreInv k st → ScoreInv (k + 1) (body run st))
    (n run k : Nat) (st : LoopState) (h : ScoreInv k st) :
    ScoreInv (k + n) (rounds_no_break body n run st) := by
  induction n with
  | zero => exact h
  | succ n ih =>
    rw [rounds_no_break_succ]
    exact hbody _ _ _ ih

theorem run_loop_runs_le (body : Nat → LoopState → LoopState) (n run : Nat) (st : LoopState) :
    (run_loop body n run st).runs ≤ run + n := by
  induction n generalizing run st with
  | zero => simp [run_loop]
  | succ n ih =>
    unfold run_loop
    simp only
    split
    · simp
    · have := ih (run + 1) (body run st)
      omega

theorem run_loop_runs_gt (body : Nat → LoopState → LoopState) (n run : Nat) (st : LoopState) :
    run + 1 ≤ (run_loop body (n + 1) run st).runs := by
  induction n generalizing run st with
  | zero =>
    unfold run_loop
    simp only
    split
    · simp
    · simp [run_loop]
  | succ n ih =>
    unfold run_loop
    simp only
    split
    · simp
    · have := ih (run + 1) (body run st)
      omega

theorem run_loop_no_margin (body : Nat → LoopState → LoopState) (n run : Nat) (st : LoopState)
    (h : ∀ j, j < n → margin (rounds_no_break body (j + 1) run st) = false) :
    run_loop body n run st = ⟨rounds_no_break body n run st, run + n, false⟩ := by
  induction n generalizing run st with
  | zero => simp [run_loop, rounds_no_break]
  | succ n ih =>
    unfold run_loop
    simp only
    have h0 : margin (body run st) = false := h 0 (Nat.succ_pos n)
    rw [h0]
    simp only [Bool.false_eq_true, if_false]
    rw [ih (run + 1) (body run st) (fun j hj => h (j + 1) (Nat.succ_lt_succ hj))]
    simp only [rounds_no_break]
    congr 1
    omega

theorem run_loop_of_inv (body : Nat → LoopState → LoopState)
    (hbody : ∀ run k st, ScoreInv k st → ScoreInv (k + 1) (body run st))
    (n run k : Nat) (st : LoopState) (h : ScoreInv k st) (hk : k + n ≤ 400) :
    run_loop body n run st = ⟨rounds_no_break body n run st, run + n, false⟩ := by
  apply run_loop_no_margin
  intro j hj
  exact margin_false_of_inv (k + (j + 1)) _
    (rounds_no_break_inv body hbody (j + 1) run k st h) (by omega)

/-! ## The claims -/

/-- C1 (fails on the code): in round 0 of `spectre_v1` `leak_byte` on the view
"Hello GitHub" (size 12) with the out-of-range target index 13, the first read of the
encode step is `data[13]`, made by the unguarded loop
`force_read(&timing_array[data[index] * stride])`; the round reads `data[13]` 100 times,
and 13 is not below the size. -/
theorem spectre_v1.encode_reads_unguarded :
    (spectre_v1.encode_reads spectre_v1.text_table_1 13 0).head? = some 13 ∧
    (spectre_v1.encode_reads spectre_v1.text_table_1 13 0).count 13 = 100 ∧
    ¬ ((13 : Int) < (spectre_v1.text_table_1.size : Int)) := by
  decide!

/-- C4: both variants of `leak_byte` leave the round loop after at most 100 rounds; when
the margin test fails after every round, exactly 100 rounds are executed, the loop is left
at the cap, and the result is `char(best)` for `best` the first component of
`top_two_indices` on the scoreboard after round 100. -/
theorem leak_byte_round_cap (text : string_view) (index : Int) (timer : Nat → Nat → Int) :
    (side_channel.leak_byte_loop timer).runs ≤ 100 ∧
    (spectre_v1.leak_byte_loop text timer).runs ≤ 100 ∧
    ((∀ k, k < 100 →
        margin (rounds_no_break (side_channel.round timer) (k + 1) 0 LoopState.init) = false) →
      (side_channel.leak_byte_loop timer).runs = 100 ∧
      (side_channel.leak_byte_loop timer).confident = false ∧
      side_channel.leak_byte text index timer =
        toChar (top_two_indices
          (rounds_no_break (side_channel.round timer) 100 0 LoopState.init).scores).1) ∧
    ((∀ k, k < 100 →
        margin (rounds_no_break (spectre_v1.round text timer) (k + 1) 0 LoopState.init)
          = false) →
      (spectre_v1.leak_byte_loop text timer).runs = 100 ∧
      (spectre_v1.leak_byte_loop text timer).confident = false ∧
      spectre_v1.leak_byte text index timer =
        toChar (top_two_indices
          (rounds_no_break (spectre_v1.round text timer) 100 0 LoopState.init).scores).1) := by
  refine ⟨?_, ?_, ?_, ?_⟩
  · have := run_loop_runs_le (side_channel.round timer) 100 0 LoopState.init
    unfold side_channel.leak_byte_loop
    omega
  · have := run_loop_runs_le (spectre_v1.round text timer) 100 0 LoopState.init
    unfold spectre_v1.leak_byte_loop
    omega
  · intro h
    have e := run_loop_no_margin (side_channel.round timer) 100 0 LoopState.init h
    unfold side_channel.leak_byte side_channel.leak_byte_loop
    rw [e]
    refine ⟨rfl, rfl, ?_⟩
    simp only
    rw [rounds_no_break_succ, side_channel.direct_round_best]
  · intro h
    have e := run_loop_no_margin (spectre_v1.round text timer) 100 0 LoopState.init h
    unfold spectre_v1.leak_byte spectre_v1.leak_byte_loop
    rw [e]
    refine ⟨rfl, rfl, ?_⟩
    simp only
    rw [rounds_no_break_succ, spectre_v1.speculative_round_best]

/-- Witness of C4: with every slot measured at 7 cycles in every round, no round meets the
margin, so both variants run 100 rounds. -/
theorem leak_byte_round_cap_witness :
    (side_channel.leak_byte_loop (fun _ _ => 7)).runs = 100 ∧
    (spectre_v1.leak_byte_loop spectre_v1.text_table_1 (fun _ _ => 7)).runs = 100 :=
  ⟨((leak_byte_round_cap spectre_v1.text_table_1 13 (fun _ _ => 7)).2.2.1
      (fun k hk => margin_false_of_inv (0 + (k + 1)) _
        (rounds_no_break_inv _ (fun run k st => side_channel.direct_round_inv _ run k st)
          (k + 1) 0 0 LoopState.init ScoreInv_init) (by omega))).1,
   ((leak_byte_round_cap spectre_v1.text_table_1 13 (fun _ _ => 7)).2.2.2
      (fun k hk => margin_false_of_inv (0 + (k + 1)) _
        (rounds_no_break_inv _ (fun run k st => spectre_v1.speculative_round_inv _ _ run k st)
          (k + 1) 0 0 LoopState.init ScoreInv_init) (by omega))).1⟩

theorem run_loop_break_iff (body : Nat → LoopState → LoopState) (n run : Nat)
    (st : LoopState) :
    ((run_loop body (n + 1) run st).runs = run + 1 ∧
        (run_loop body (n + 1) run st).confident = true) ↔
      margin (body run st) = true := by
  unfold run_loop
  simp only
  by_cases h : margin (body run st) = true
  · simp [h]
  · have hf : margin (body run st) = false := by simpa using h
    rw [hf]
    simp only [Bool.false_eq_true, if_false, iff_false, not_and]
    intro hr
    cases n with
    | zero => simp [run_loop]
    | succ n =>
      have := run_loop_runs_gt body n (run + 1) (body run st)
      omega

theorem margin_iff (st : LoopState) :
    margin st = true ↔
      arr_get st.scores st.best_value > 2 * arr_get st.scores st.runner_up_value + 400 := by
  unfold margin
  simp

/-- C5: with at least one round left before the cap, the loop of either variant is left
through `break` right after the current round if and only if
`scores[best] > 2*scores[runnerUp] + 400` holds of the scoreboard after that round, with
`(best, runnerUp) = top_two_indices(scores)`; a scoreboard whose best score is 450 and
runner-up score 20 meets the test, one with 410 and 10 does not. -/
theorem stopping_rule (text : string_view) (timer : Nat → Nat → Int) (n run : Nat)
    (st : LoopState) (lat scores : List Int) :
    (((run_loop (side_channel.round timer) (n + 1) run st).runs = run + 1 ∧
        (run_loop (side_channel.round timer) (n + 1) run st).confident = true) ↔
      arr_get (side_channel.round timer run st).scores
          (top_two_indices (side_channel.round timer run st).scores).1 >
        2 * arr_get (side_channel.round timer run st).scores
          (top_two_indices (side_channel.round timer run st).scores).2 + 400) ∧
    (((run_loop (spectre_v1.round text timer) (n + 1) run st).runs = run + 1 ∧
        (run_loop (spectre_v1.round text timer) (n + 1) run st).confident = true) ↔
      arr_get (spectre_v1.round text timer run st).scores
          (top_two_indices (spectre_v1.round text timer run st).scores).1 >
        2 * arr_get (spectre_v1.round text timer run st).scores
          (top_two_indices (spectre_v1.round text timer run st).scores).2 + 400) ∧
    (arr_get scores (top_two_indices scores).1 = 450 →
      arr_get scores (top_two_indices scores).2 = 20 →
      margin ⟨lat, scores, (top_two_indices scores).1, (top_two_indices scores).2⟩ = true) ∧
    (arr_get scores (top_two_indices scores).1 = 410 →
      arr_get scores (top_two_indices scores).2 = 10 →
      margin ⟨lat, scores, (top_two_indices scores).1, (top_two_indices scores).2⟩ = false) := by
  refine ⟨?_, ?_, ?_, ?_⟩
  · rw [run_loop_break_iff, margin_iff, side_channel.direct_round_best,
      side_channel.direct_round_runner_up]
  · rw [run_loop_break_iff, margin_iff, spectre_v1.speculative_round_best, spectre_v1.speculative_round_runner_up]
  · intro h1 h2
    rw [margin_iff]
    simp only [h1, h2]
    decide
  · intro h1 h2
    unfold margin
    simp only [h1, h2]
    decide

/-- Witness of C5: the scoreboard with 450 at slot 65 and 20 at slot 66 meets the margin
test; the scoreboard with 410 at slot 65 and 10 at slot 66 does not. -/
theorem stopping_rule_witness :
    margin ⟨arr_zero, arr_set (arr_set arr_zero 65 450) 66 20,
      (top_two_indices (arr_set (arr_set arr_zero 65 450) 66 20)).1,
      (top_two_indices (arr_set (arr_set arr_zero 65 450) 66 20)).2⟩ = true ∧
    margin ⟨arr_zero, arr_set (arr_set arr_zero 65 410) 66 10,
      (top_two_indices (arr_set (arr_set arr_zero 65 410) 66 10)).1,
      (top_two_indices (arr_set (arr_set arr_zero 65 410) 66 10)).2⟩ = false :=
  ⟨(stopping_rule spectre_v1.text_table_1 (fun _ _ => 7) 0 0 LoopState.init arr_zero
      (arr_set (arr_set arr_zero 65 450) 66 20)).2.2.1 (by decide!) (by decide!),
   (stopping_rule spectre_v1.text_table_1 (fun _ _ => 7) 0 0 LoopState.init arr_zero
      (arr_set (arr_set arr_zero 65 410) 66 10)).2.2.2 (by decide!) (by decide!)⟩

/-- C6 (fails on the code): for every sequence of measured latencies, both variants of
`leak_byte` execute all 100 rounds and leave the loop at the cap, never through `break`:
no score exceeds the number of rounds, 100, while the margin test needs more than 400. -/
theorem confident_unreachable (text : string_view) (timer : Nat → Nat → Int) :
    ((side_channel.leak_byte_loop timer).runs = 100 ∧
      (side_channel.leak_byte_loop timer).confident = false) ∧
    ((spectre_v1.leak_byte_loop text timer).runs = 100 ∧
      (spectre_v1.leak_byte_loop text timer).confident = false) := by
  constructor
  · unfold side_channel.leak_byte_loop
    rw [run_loop_of_inv _ (fun run k st => side_channel.direct_round_inv timer run k st)
      100 0 0 LoopState.init ScoreInv_init (by omega)]
    exact ⟨rfl, rfl⟩
  · unfold spectre_v1.leak_byte_loop
    rw [run_loop_of_inv _ (fun run k st => spectre_v1.speculative_round_inv text timer run k st)
      100 0 0 LoopState.init ScoreInv_init (by omega)]
    exact ⟨rfl, rfl⟩

theorem top_two_zero_upto (n : Nat) : forRange n (top_two_step arr_zero) (0, 0) = (0, 0) := by
  induction n with
  | zero => rfl
  | succ n ih =>
    rw [forRange_succ, ih]
    unfold top_two_step
    simp [arr_get_zero]

/-- C7 (fails on the code): on the all-zero scoreboard, the scoreboard of every call
before its first hit, `top_two_indices` returns the pair `(0, 0)`: `best` and `runnerUp`
are the same index. The same happens on the scoreboard with 5 at slot 0 and 3 at slot 7,
where slot 7 is not reported. -/
theorem top_two_indices_same_index :
    top_two_indices arr_zero = (0, 0) ∧
    (top_two_indices arr_zero).1 = (top_two_indices arr_zero).2 ∧
    top_two_indices (arr_set (arr_set arr_zero 0 5) 7 3) = (0, 0) := by
  have h : top_two_indices arr_zero = (0, 0) := top_two_zero_upto _
  rw [h]
  exact ⟨rfl, rfl, by decide!⟩

/-- C8: in a round of `spectre_v1` `leak_byte`, for every latency array, the score step
leaves the entry of the slot `i` equal to the round's training byte `data[safe_index]`
unchanged; and every other slot `b` of the 256 whose latency is below the threshold, such
as the target slot, has its entry incremented by one. -/
theorem spectre_v1.training_slot_ignored (text : string_view) (run : Nat)
    (lat sc : List Int) (i : Nat)
    (hi : (i : Int) = text.data (spectre_v1.safe_index text run)) :
    arr_get (spectre_v1.score_step text run lat sc) i = arr_get sc i ∧
    ∀ b, b < 256 → b < sc.length → b ≠ i →
      arr_get lat b < Int.tdiv (spectre_v1.avg_latency lat * 3) 4 →
      arr_get (spectre_v1.score_step text run lat sc) b = arr_get sc b + 1 := by
  constructor
  · rw [(spectre_v1.speculative_score_step_spec text run lat sc).2 i]
    have : ¬ (i < 256 ∧ i < sc.length ∧
        (arr_get lat i < Int.tdiv (spectre_v1.avg_latency lat * 3) 4 ∧
          (i : Int) ≠ text.data (spectre_v1.safe_index text run))) := fun h => h.2.2.2 hi
    rw [if_neg this]
  · intro b hb hlen hne hlow
    rw [(spectre_v1.speculative_score_step_spec text run lat sc).2 b]
    have hne2 : (b : Int) ≠ text.data (spectre_v1.safe_index text run) := by
      rw [← hi]
      exact_mod_cast hne
    rw [if_pos ⟨hb, hlen, hlow, hne2⟩]

/-- Witness of C8: round 0 on "Hello GitHub", whose training byte is 'H' = 72; slot 72
keeps its entry, and slot 84 ('T'), measured at 10 cycles like slot 72 against 200 for
the rest, gains one. -/
theorem spectre_v1.training_slot_ignored_witness :
    arr_get (spectre_v1.score_step spectre_v1.text_table_1 0
      ((List.range 256).map (fun s => if s = 72 ∨ s = 84 then (10 : Int) else 200))
      arr_zero) 72 = arr_get arr_zero 72 ∧
    arr_get (spectre_v1.score_step spectre_v1.text_table_1 0
      ((List.range 256).map (fun s => if s = 72 ∨ s = 84 then (10 : Int) else 200))
      arr_zero) 84 = arr_get arr_zero 84 + 1 :=
  ⟨(spectre_v1.training_slot_ignored spectre_v1.text_table_1 0
      ((List.range 256).map (fun s => if s = 72 ∨ s = 84 then (10 : Int) else 200))
      arr_zero 72 (by decide)).1,
   (spectre_v1.training_slot_ignored spectre_v1.text_table_1 0
      ((List.range 256).map (fun s => if s = 72 ∨ s = 84 then (10 : Int) else 200))
      arr_zero 72 (by decide)).2 84 (by decide) (by decide!) (by decide) (by decide!)⟩

/-- C9: for arrays of 256 latencies and 256 scores, the direct-mode score step increments
the entry of slot `i` by exactly one when `latencies[i]` is below
`((sum / 256) * 3) / 4`, the sum of all latencies taken in 64-bit two's complement and
both divisions truncating, and leaves it unchanged otherwise. -/
theorem side_channel.score_step_hits (lat sc : List Int) (i : Nat)
    (hlat : lat.length = 256) (hsc : sc.length = 256) (hi : i < 256) :
    (side_channel.score_step lat sc).length = 256 ∧
    arr_get (side_channel.score_step lat sc) i =
      if arr_get lat i < Int.tdiv (Int.tdiv (wrapI64 lat.sum) 256 * 3) 4 then arr_get sc i + 1
      else arr_get sc i := by
  have _ := hlat
  refine ⟨by rw [(side_channel.direct_score_step_spec lat sc).1, hsc], ?_⟩
  rw [(side_channel.direct_score_step_spec lat sc).2 i]
  have e : side_channel.avg_latency lat = Int.tdiv (wrapI64 lat.sum) 256 := by
    unfold side_channel.avg_latency
    rw [side_channel.direct_accumulate_eq]
    rfl
  rw [e]
  by_cases h : arr_get lat i < Int.tdiv (Int.tdiv (wrapI64 lat.sum) 256 * 3) 4
  · rw [if_pos h, if_pos ⟨hi, by omega, h⟩]
  · rw [if_neg h, if_neg (fun hh => h hh.2.2)]

/-- Witness of C9: slot 65 measured at 10 cycles and every other slot at 200. -/
theorem side_channel.score_step_hits_witness :
    (side_channel.score_step
      ((List.range 256).map (fun s => if s = 65 then (10 : Int) else 200))
      arr_zero).length = 256 ∧
    arr_get (side_channel.score_step
      ((List.range 256).map (fun s => if s = 65 then (10 : Int) else 200)) arr_zero) 65 =
      if arr_get ((List.range 256).map (fun s => if s = 65 then (10 : Int) else 200)) 65 <
          Int.tdiv (Int.tdiv (wrapI64
            ((List.range 256).map (fun s => if s = 65 then (10 : Int) else 200)).sum) 256 * 3) 4
      then arr_get arr_zero 65 + 1
      else arr_get arr_zero 65 :=
  side_channel.score_step_hits
    ((List.range 256).map (fun s => if s = 65 then (10 : Int) else 200)) arr_zero 65
    (by simp) arr_zero_length (by decide)

theorem rounds_no_break_congr (body1 body2 : Nat → LoopState → LoopState) (cap : Nat)
    (hinv : ∀ run k st, ScoreInv k st → ScoreInv (k + 1) (body1 run st))
    (hagree : ∀ run, run < cap → ∀ k st, ScoreInv k st → body1 run st = body2 run st)
    (n run k : Nat) (st : LoopState) (h : ScoreInv k st) (hcap : run + n ≤ cap) :
    rounds_no_break body1 n run st = rounds_no_break body2 n run st := by
  induction n generalizing run k st with
  | zero => rfl
  | succ n ih =>
    rw [rounds_no_break, rounds_no_break, ← hagree run (by omega) k st h]
    exact ih (run + 1) (k + 1) (body1 run st) (hinv run k st h) (by omega)

theorem side_channel.direct_round_congr (timer1 timer2 : Nat → Nat → Int) (run k : Nat)
    (st : LoopState) (h : ScoreInv k st)
    (hagree : ∀ slot, slot < 256 → timer1 run slot = timer2 run slot) :
    side_channel.round timer1 run st = side_channel.round timer2 run st := by
  have e : measure_step timer1 run st.latencies = measure_step timer2 run st.latencies := by
    rw [measure_step_eq _ _ _ h.1, measure_step_eq _ _ _ h.1]
    apply List.map_congr_left
    intro s hs
    exact hagree s (List.mem_range.mp hs)
  simp only [side_channel.round, e]

theorem spectre_v1.speculative_round_congr (text : string_view) (timer1 timer2 : Nat → Nat → Int)
    (run k : Nat) (st : LoopState) (h : ScoreInv k st)
    (hagree : ∀ slot, slot < 256 → timer1 run slot = timer2 run slot) :
    spectre_v1.round text timer1 run st = spectre_v1.round text timer2 run st := by
  have e : measure_step timer1 run st.latencies = measure_step timer2 run st.latencies := by
    rw [measure_step_eq _ _ _ h.1, measure_step_eq _ _ _ h.1]
    apply List.map_congr_left
    intro s hs
    exact hagree s (List.mem_range.mp hs)
  simp only [spectre_v1.round, e]

/-- C10: the probe order `i ↦ ((i*167)+13) & 0xff` maps `0..255` into `0..255` and every
slot is the image of exactly one `i`; one measure loop therefore overwrites each of the
256 latency entries, whatever they held, with that round's latency of the slot; and two
runs of `leak_byte` (either variant) whose measured latencies agree end with the same
scoreboard and the same outcome. -/
theorem measure_order_is_fixed (text : string_view) (timer1 timer2 : Nat → Nat → Int)
    (run : Nat) (lat : List Int) :
    (∀ i, mixed_i i < 256) ∧
    (∀ s, s < 256 → ∃ i, i < 256 ∧ mixed_i i = s ∧ ∀ j, j < 256 → mixed_i j = s → j = i) ∧
    (lat.length = 256 → measure_step timer1 run lat = (List.range 256).map (timer1 run)) ∧
    ((∀ r slot, r < 100 → slot < 256 → timer1 r slot = timer2 r slot) →
      side_channel.leak_byte_loop timer1 = side_channel.leak_byte_loop timer2 ∧
      spectre_v1.leak_byte_loop text timer1 = spectre_v1.leak_byte_loop text timer2) := by
  refine ⟨mixed_i_lt, ?_, measure_step_eq timer1 run lat, ?_⟩
  · intro s hs
    refine ⟨_, (mixed_i_surjective s hs).1, (mixed_i_surjective s hs).2, ?_⟩
    intro j hj hjs
    apply mixed_i_injective j _ hj (mixed_i_surjective s hs).1
    rw [hjs, (mixed_i_surjective s hs).2]
  · intro hagree
    constructor
    · unfold side_channel.leak_byte_loop
      rw [run_loop_of_inv _ (fun run k st => side_channel.direct_round_inv timer1 run k st)
          100 0 0 LoopState.init ScoreInv_init (by omega),
        run_loop_of_inv _ (fun run k st => side_channel.direct_round_inv timer2 run k st)
          100 0 0 LoopState.init ScoreInv_init (by omega),
        rounds_no_break_congr (side_channel.round timer1) (side_channel.round timer2) 100
          (fun run k st => side_channel.direct_round_inv timer1 run k st)
          (fun r hr k st hst => side_channel.direct_round_congr timer1 timer2 r k st hst
            (fun slot hslot => hagree r slot hr hslot))
          100 0 0 LoopState.init ScoreInv_init (by omega)]
    · unfold spectre_v1.leak_byte_loop
      rw [run_loop_of_inv _ (fun run k st => spectre_v1.speculative_round_inv text timer1 run k st)
          100 0 0 LoopState.init ScoreInv_init (by omega),
        run_loop_of_inv _ (fun run k st => spectre_v1.speculative_round_inv text timer2 run k st)
          100 0 0 LoopState.init ScoreInv_init (by omega),
        rounds_no_break_congr (spectre_v1.round text timer1) (spectre_v1.round text timer2)
          100 (fun run k st => spectre_v1.speculative_round_inv text timer1 run k st)
          (fun r hr k st hst => spectre_v1.speculative_round_congr text timer1 timer2 r k st hst
            (fun slot hslot => hagree r slot hr hslot))
          100 0 0 LoopState.init ScoreInv_init (by omega)]

/-- Witness of C10: a timer and the same timer changed only outside the 100 rounds and
256 slots give the same outcome, and a measure loop over the zero array yields the
round's latencies. -/
theorem measure_order_is_fixed_witness :
    measure_step (fun _ s => if s = 65 then 10 else 200) 0 arr_zero =
      (List.range 256).map (fun s => if s = 65 then (10 : Int) else 200) ∧
    side_channel.leak_byte_loop (fun _ s => if s = 65 then 10 else 200) =
      side_channel.leak_byte_loop
        (fun r s => if r < 100 ∧ s < 256 then (if s = 65 then 10 else 200) else 0) :=
  ⟨(measure_order_is_fixed spectre_v1.text_table_1
      (fun _ s => if s = 65 then 10 else 200)
      (fun r s => if r < 100 ∧ s < 256 then (if s = 65 then 10 else 200) else 0)
      0 arr_zero).2.2.1 arr_zero_length,
   ((measure_order_is_fixed spectre_v1.text_table_1
      (fun _ s => if s = 65 then 10 else 200)
      (fun r s => if r < 100 ∧ s < 256 then (if s = 65 then 10 else 200) else 0)
      0 arr_zero).2.2.2
      (fun r slot hr hslot => by simp [hr, hslot])).1⟩

/-! ## Noiseless timing models -/

theorem sum_map_single (b : Nat) (x y : Int) (n : Nat) :
    ((List.range n).map (fun s => if s = b then x else y)).sum =
      if b < n then x + ((n : Int) - 1) * y else (n : Int) * y := by
  induction n with
  | zero => simp
  | succ n ih =>
    rw [List.range_succ, List.map_append, List.sum_append, ih]
    simp only [List.map_cons, List.map_nil, List.sum_cons, List.sum_nil, add_zero]
    by_cases h1 : b < n
    · have h2 : b < n + 1 := by omega
      have h3 : ¬ n = b := by omega
      rw [if_pos h1, if_pos h2, if_neg h3]
      push_cast
      ring
    · by_cases h4 : n = b
      · have h2 : b < n + 1 := by omega
        rw [if_neg h1, if_pos h2, if_pos h4]
        push_cast
        ring
      · have h2 : ¬ b < n + 1 := by omega
        rw [if_neg h1, if_neg h2, if_neg h4]
        push_cast
        ring

theorem list_sum_bounds (l : List Int) (m : Int) (h : ∀ x, x ∈ l → 0 ≤ x ∧ x ≤ m) :
    0 ≤ l.sum ∧ l.sum ≤ (l.length : Int) * m := by
  induction l with
  | nil => simp
  | cons a l ih =>
    have ha := h a (List.mem_cons_self a l)
    have hl := ih (fun x hx => h x (List.mem_cons_of_mem a hx))
    rw [List.sum_cons, List.length_cons]
    push_cast
    constructor
    · omega
    · have : ((l.length : Int) + 1) * m = (l.length : Int) * m + m := by ring
      omega

theorem arr_get_map_range (f : Nat → Int) (n s : Nat) (hs : s < n) :
    arr_get ((List.range n).map f) s = f s := by
  unfold arr_get
  rw [List.getD_eq_getElem?_getD]
  simp [hs]

theorem side_channel.threshold_ideal (b h m : Nat) (hb : b < 256)
    (hfit : h + 255 * m < 2 ^ 63) :
    Int.tdiv (side_channel.avg_latency
      ((List.range 256).map (fun s => if s = b then (h : Int) else (m : Int))) * 3) 4 =
      (((h + 255 * m) / 256 * 3 / 4 : Nat) : Int) := by
  unfold side_channel.avg_latency
  rw [side_channel.direct_accumulate_eq, sum_map_single, if_pos hb]
  have e1 : (h : Int) + (((256 : Nat) : Int) - 1) * (m : Int) = ((h + 255 * m : Nat) : Int) := by
    push_cast
    ring
  rw [e1]
  have hfit2 : ((h + 255 * m : Nat) : Int) < 2 ^ 63 := by exact_mod_cast hfit
  rw [wrapI64_of_range _ (by omega) hfit2]
  show Int.tdiv (Int.tdiv ((h + 255 * m : Nat) : Int) ((256 : Nat) : Int) * 3) 4 = _
  rw [← Int.ofNat_tdiv]
  have e2 : (((h + 255 * m) / 256 : Nat) : Int) * 3 = (((h + 255 * m) / 256 * 3 : Nat) : Int) := by
    push_cast
    ring
  rw [e2]
  exact (Int.ofNat_tdiv _ 4).symm

theorem side_channel.direct_round_ideal (timer : Nat → Nat → Int) (run k b h m : Nat)
    (st : LoopState) (hb : b < 256) (hlt : h < m) (hfit : h + 255 * m < 2 ^ 63)
    (hthr : h < (h + 255 * m) / 256 * 3 / 4)
    (htimer : ∀ slot, slot < 256 → timer run slot = if slot = b then (h : Int) else (m : Int))
    (hinv : ScoreInv k st) (hsb : arr_get st.scores b = k)
    (hso : ∀ j, j ≠ b → arr_get st.scores j = 0) :
    ScoreInv (k + 1) (side_channel.round timer run st) ∧
    arr_get (side_channel.round timer run st).scores b = ((k + 1 : Nat) : Int) ∧
    (∀ j, j ≠ b → arr_get (side_channel.round timer run st).scores j = 0) ∧
    (side_channel.round timer run st).best_value = b := by
  have hI := side_channel.direct_round_inv timer run k st hinv
  have eL : measure_step timer run st.latencies =
      (List.range 256).map (fun s => if s = b then (h : Int) else (m : Int)) := by
    rw [measure_step_eq _ _ _ hinv.1]
    apply List.map_congr_left
    intro s hs
    exact htimer s (List.mem_range.mp hs)
  have hget : ∀ j, arr_get (side_channel.round timer run st).scores j =
      if j = b then arr_get st.scores j + 1 else arr_get st.scores j := by
    intro j
    rw [side_channel.direct_round_scores, (side_channel.direct_score_step_spec _ _).2 j, eL,
      side_channel.threshold_ideal b h m hb hfit, hinv.2.1]
    by_cases hj : j < 256
    · rw [arr_get_map_range _ _ _ hj]
      by_cases hjb : j = b
      · rw [if_pos hjb, if_pos hjb, if_pos ⟨hj, hj, by exact_mod_cast hthr⟩]
      · rw [if_neg hjb, if_neg hjb, if_neg]
        rintro ⟨_, _, hlow⟩
        have hlow2 : m < (h + 255 * m) / 256 * 3 / 4 := by exact_mod_cast hlow
        omega
    · have hjb : ¬ j = b := by omega
      rw [if_neg hjb, if_neg (fun hh => hj hh.1)]
  have h1 : arr_get (side_channel.round timer run st).scores b = ((k + 1 : Nat) : Int) := by
    rw [hget b, if_pos rfl, hsb]
    push_cast
    rfl
  have h2 : ∀ j, j ≠ b → arr_get (side_channel.round timer run st).scores j = 0 := by
    intro j hj
    rw [hget j, if_neg hj, hso j hj]
  refine ⟨hI, h1, h2, ?_⟩
  rw [side_channel.direct_round_best]
  apply top_two_best_eq _ b (by rw [hI.2.1]; exact hb)
  intro i _ hib
  rw [h1, h2 i hib]
  exact_mod_cast Nat.succ_pos k

theorem side_channel.direct_rounds_ideal (timer : Nat → Nat → Int) (b h m : Nat)
    (hb : b < 256) (hlt : h < m) (hfit : h + 255 * m < 2 ^ 63)
    (hthr : h < (h + 255 * m) / 256 * 3 / 4)
    (htimer : ∀ run slot, run < 100 → slot < 256 →
      timer run slot = if slot = b then (h : Int) else (m : Int))
    (n : Nat) (hn : n ≤ 100) :
    ScoreInv n (rounds_no_break (side_channel.round timer) n 0 LoopState.init) ∧
    arr_get (rounds_no_break (side_channel.round timer) n 0 LoopState.init).scores b = n ∧
    (∀ j, j ≠ b →
      arr_get (rounds_no_break (side_channel.round timer) n 0 LoopState.init).scores j = 0) ∧
    (0 < n → (rounds_no_break (side_channel.round timer) n 0 LoopState.init).best_value = b) := by
  induction n with
  | zero =>
    refine ⟨ScoreInv_init, ?_, ?_, fun h0 => absurd h0 (Nat.lt_irrefl 0)⟩
    · show arr_get arr_zero b = ((0 : Nat) : Int)
      rw [arr_get_zero]
      rfl
    · intro j _
      exact arr_get_zero j
  | succ n ih =>
    obtain ⟨i1, i2, i3, _⟩ := ih (by omega)
    rw [rounds_no_break_succ]
    have := side_channel.direct_round_ideal timer (0 + n) n b h m _ hb hlt hfit hthr
      (fun slot hs => htimer (0 + n) slot (by omega) hs) i1 i2 i3
    exact ⟨this.1, this.2.1, this.2.2.1, fun _ => this.2.2.2⟩

theorem toChar_of_le (b : Nat) (hb : b ≤ 127) : toChar (b : Int) = b := by
  unfold toChar
  omega

/-- C2: direct mode under a noiseless timing model. For a view `text`, an index inside
it whose byte `b = text[index]` is at most 127, and latencies `h < m` (cycle counts whose
sum `h + 255*m` fits `int64_t`) with `h < ((h + 255*m)/256)*3/4`: when in each of the
100 rounds slot `b` measures `h` and each other slot `m`, `leak_byte` returns `b`, `b` is
the best index after the first round, and slot `b` is the slot the encode step reads
(`data[index] * stride = b * 512`). -/
theorem side_channel.direct_mode_recovers (text : string_view) (index h m : Nat)
    (timer : Nat → Nat → Int)
    (hidx : index < text.size) (hb : text.mem index ≤ 127)
    (hlt : h < m) (hfit : h + 255 * m < 2 ^ 63)
    (hthr : h < (h + 255 * m) / 256 * 3 / 4)
    (htimer : ∀ run slot, run < 100 → slot < 256 →
      timer run slot = if slot = text.mem index then (h : Int) else (m : Int)) :
    side_channel.leak_byte text index timer = text.mem index ∧
    (side_channel.round timer 0 LoopState.init).best_value = text.mem index ∧
    touched_offset text index = (text.mem index : Int) * 512 := by
  have _ := hidx
  have hb256 : text.mem index < 256 := by omega
  have key := side_channel.direct_rounds_ideal timer (text.mem index) h m hb256 hlt hfit hthr htimer
  refine ⟨?_, ?_, ?_⟩
  · unfold side_channel.leak_byte side_channel.leak_byte_loop
    rw [run_loop_of_inv _ (fun run k st => side_channel.direct_round_inv timer run k st)
      100 0 0 LoopState.init ScoreInv_init (by omega)]
    simp only
    rw [(key 100 (le_refl _)).2.2.2 (by omega)]
    exact toChar_of_le _ hb
  · have := (key 1 (by omega)).2.2.2 (by omega)
    rw [rounds_no_break_succ] at this
    exact this
  · unfold touched_offset string_view.data stride
    rw [toChar_of_le _ hb]

/-- Witness of C2: the secret "AB" with the touched slot at 10 cycles and every other slot
at 200 gives 'A' = 65 at index 0 and 'B' = 66 at index 1. -/
theorem side_channel.direct_mode_recovers_witness :
    side_channel.leak_byte (string_view.ofBytes [65, 66] []) 0
      (fun _ slot => if slot = 65 then 10 else 200) = 65 ∧
    side_channel.leak_byte (string_view.ofBytes [65, 66] []) 1
      (fun _ slot => if slot = 66 then 10 else 200) = 66 :=
  ⟨(side_channel.direct_mode_recovers (string_view.ofBytes [65, 66] []) 0 10 200
      (fun _ slot => if slot = 65 then 10 else 200)
      (by decide) (by decide) (by decide) (by decide) (by decide)
      (fun _ _ _ _ => rfl)).1,
   (side_channel.direct_mode_recovers (string_view.ofBytes [65, 66] []) 1 10 200
      (fun _ slot => if slot = 66 then 10 else 200)
      (by decide) (by decide) (by decide) (by decide) (by decide)
      (fun _ _ _ _ => rfl)).1⟩

theorem wrapU64_of_range (x : Int) (h0 : 0 ≤ x) (h1 : x < 2 ^ 64) : wrapU64 x = x := by
  unfold wrapU64
  exact Int.emod_eq_of_lt h0 h1

theorem spectre_v1.threshold_le (l : List Int) (high : Int) (hlen : l.length = 256)
    (hall : ∀ x, x ∈ l → 0 ≤ x ∧ x ≤ high) (h64 : 256 * high < 2 ^ 64) :
    Int.tdiv (spectre_v1.avg_latency l * 3) 4 ≤ high := by
  obtain ⟨s0, s1⟩ := list_sum_bounds l high hall
  rw [hlen] at s1
  push_cast at s1
  unfold spectre_v1.avg_latency
  rw [spectre_v1.speculative_accumulate_eq, wrapU64_of_range _ s0 (by omega)]
  have e : ((timing_array_size : Nat) : Int) = 256 := rfl
  rw [e]
  have a0 : 0 ≤ l.sum / 256 := Int.ediv_nonneg s0 (by norm_num)
  have a1 : l.sum / 256 ≤ high := by omega
  rw [wrapI64_of_range _ (by omega) (by omega),
    Int.tdiv_eq_ediv (by omega) (by norm_num)]
  omega

theorem spectre_v1.speculative_round_ideal (text : string_view) (index : Int)
    (timer : Nat → Nat → Int) (run k b low high : Nat) (st : LoopState)
    (hbyte : text.data index = (b : Int)) (hb : b < 256)
    (hlt : low < high) (hfit : low + 255 * high < 2 ^ 63)
    (htimer : ∀ slot, slot < 256 → timer run slot =
      if (slot : Int) = text.data index
          ∨ (slot : Int) = text.data (spectre_v1.safe_index text run) then (low : Int)
      else (high : Int))
    (hthr : (low : Int) <
      Int.tdiv (spectre_v1.avg_latency ((List.range 256).map (timer run)) * 3) 4)
    (hinv : ScoreInv k st) :
    ∀ j, arr_get (spectre_v1.round text timer run st).scores j =
      if j = b ∧ text.data (spectre_v1.safe_index text run) ≠ text.data index then
        arr_get st.scores j + 1
      else arr_get st.scores j := by
  intro j
  have hle : Int.tdiv (spectre_v1.avg_latency ((List.range 256).map (timer run)) * 3) 4
      ≤ (high : Int) := by
    apply spectre_v1.threshold_le _ _ (by simp)
    · intro x hx
      obtain ⟨s, hs, rfl⟩ := List.mem_map.mp hx
      rw [htimer s (List.mem_range.mp hs)]
      split <;> omega
    · have : ((low + 255 * high : Nat) : Int) < 2 ^ 63 := by exact_mod_cast hfit
      push_cast at this
      omega
  rw [spectre_v1.speculative_round_scores, (spectre_v1.speculative_score_step_spec _ _ _ _).2 j,
    measure_step_eq _ _ _ hinv.1, hinv.2.1]
  have hiff : (j < 256 ∧ j < 256 ∧
      (arr_get ((List.range 256).map (timer run)) j <
          Int.tdiv (spectre_v1.avg_latency ((List.range 256).map (timer run)) * 3) 4 ∧
        (j : Int) ≠ text.data (spectre_v1.safe_index text run))) ↔
      (j = b ∧ text.data (spectre_v1.safe_index text run) ≠ text.data index) := by
    constructor
    · rintro ⟨hj, _, hlow, hne⟩
      by_cases hjb : j = b
      · subst hjb
        exact ⟨rfl, fun hT => hne (by rw [hT, hbyte])⟩
      · exfalso
        have hjB : ¬ (j : Int) = text.data index := by
          rw [hbyte]
          exact_mod_cast hjb
        rw [arr_get_map_range _ _ _ hj, htimer j hj, if_neg (fun hh => hh.elim hjB hne)] at hlow
        omega
    · rintro ⟨rfl, hT⟩
      refine ⟨hb, hb, ?_, ?_⟩
      · rw [arr_get_map_range _ _ _ hb, htimer j hb, if_pos (Or.inl hbyte.symm)]
        exact hthr
      · rw [← hbyte]
        exact fun hh => hT hh.symm
  by_cases hc : j = b ∧ text.data (spectre_v1.safe_index text run) ≠ text.data index
  · rw [if_pos (hiff.mpr hc), if_pos hc]
  · rw [if_neg (fun hh => hc (hiff.mp hh)), if_neg hc]

theorem top_two_best_zero (range : List Int)
    (h : ∀ i, arr_get range i ≤ arr_get range 0) : (top_two_indices range).1 = 0 := by
  by_contra hne
  have h1 := (top_two_upto range range.length).2.2.2.1 0 (Nat.pos_of_ne_zero hne)
  have h2 := h (top_two_indices range).1
  unfold top_two_indices at h2
  simp only at h1
  omega

theorem spectre_v1.speculative_rounds_ideal (text : string_view) (index : Int)
    (timer : Nat → Nat → Int) (b low high : Nat)
    (hbyte : text.data index = (b : Int)) (hb : b < 256)
    (hlt : low < high) (hfit : low + 255 * high < 2 ^ 63)
    (htimer : ∀ run slot, run < 100 → slot < 256 → timer run slot =
      if (slot : Int) = text.data index
          ∨ (slot : Int) = text.data (spectre_v1.safe_index text run) then (low : Int)
      else (high : Int))
    (hthr : ∀ run, run < 100 → (low : Int) <
      Int.tdiv (spectre_v1.avg_latency ((List.range 256).map (timer run)) * 3) 4)
    (n : Nat) (hn : n ≤ 100) :
    ScoreInv n (rounds_no_break (spectre_v1.round text timer) n 0 LoopState.init) ∧
    (∀ j, j ≠ b →
      arr_get (rounds_no_break (spectre_v1.round text timer) n 0 LoopState.init).scores j
        = 0) ∧
    ((∃ r, r < n ∧ text.data (spectre_v1.safe_index text r) ≠ text.data index) →
      1 ≤ arr_get
        (rounds_no_break (spectre_v1.round text timer) n 0 LoopState.init).scores b) ∧
    ((∀ r, r < n → text.data (spectre_v1.safe_index text r) = text.data index) →
      arr_get (rounds_no_break (spectre_v1.round text timer) n 0 LoopState.init).scores b
        = 0) := by
  induction n with
  | zero =>
    refine ⟨ScoreInv_init, fun j _ => arr_get_zero j, ?_, fun _ => arr_get_zero b⟩
    rintro ⟨r, hr, _⟩
    exact absurd hr (Nat.not_lt_zero r)
  | succ n ih =>
    obtain ⟨i1, i2, i3, i4⟩ := ih (by omega)
    rw [rounds_no_break_succ]
    have hget := spectre_v1.speculative_round_ideal text index timer (0 + n) n b low high _ hbyte hb hlt
      hfit (fun slot hs => htimer (0 + n) slot (by omega) hs) (hthr (0 + n) (by omega)) i1
    have hI := spectre_v1.speculative_round_inv text timer (0 + n) n _ i1
    have hnn : 0 + n = n := Nat.zero_add n
    refine ⟨hI, ?_, ?_, ?_⟩
    · intro j hj
      rw [hget j, if_neg (fun hh => hj hh.1)]
      exact i2 j hj
    · rintro ⟨r, hr, hT⟩
      rw [hget b]
      have h0 := (i1.2.2 b).1
      by_cases hTn : text.data (spectre_v1.safe_index text (0 + n)) ≠ text.data index
      · rw [if_pos ⟨rfl, hTn⟩]
        omega
      · rw [if_neg (fun hh => hTn hh.2)]
        apply i3
        refine ⟨r, ?_, hT⟩
        rcases Nat.lt_succ_iff_lt_or_eq.mp hr with h | h
        · exact h
        · subst h
          rw [hnn] at hTn
          exact absurd hT hTn
    · intro hall
      rw [hget b, if_neg]
      · exact i4 (fun r hr => hall r (by omega))
      · rintro ⟨_, hT⟩
        rw [hnn] at hT
        exact hT (hall n (Nat.lt_succ_self n))

/-- C3 as amended: speculative mode under a noiseless timing model. For a non-empty safe
view and a target index at or past its end whose byte `b = data[index]` is at most 127,
and latencies `low < high` (cycle counts with `low + 255*high` inside `int64_t`): when in
each of the 100 rounds the slot of `b` and the slot of the training byte
`data[safe_index]` measure `low`, every other slot `high`, `low` is below the round's
threshold, and the training byte of at least one round differs from `b`, `leak_byte`
returns `b`. -/
theorem spectre_v1.speculative_mode_recovers (text : string_view) (index : Int)
    (low high : Nat) (timer : Nat → Nat → Int)
    (hne : 0 < text.size) (hidx : (text.size : Int) ≤ index)
    (hb : text.mem index ≤ 127) (hlt : low < high) (hfit : low + 255 * high < 2 ^ 63)
    (htimer : ∀ run slot, run < 100 → slot < 256 →
      timer run slot = spectre_v1.ideal_timer text index low high run slot)
    (hthr : ∀ run, run < 100 → (low : Int) <
      Int.tdiv (spectre_v1.avg_latency ((List.range 256).map (timer run)) * 3) 4)
    (hdiff : ∃ run, run < 100 ∧
      text.data (spectre_v1.safe_index text run) ≠ text.data index) :
    spectre_v1.leak_byte text index timer = text.mem index := by
  have _ := hne
  have _ := hidx
  have hbyte : text.data index = (text.mem index : Int) := toChar_of_le _ hb
  have hb256 : text.mem index < 256 := by omega
  have key := spectre_v1.speculative_rounds_ideal text index timer (text.mem index) low high hbyte hb256
    hlt hfit htimer hthr 100 (le_refl _)
  unfold spectre_v1.leak_byte spectre_v1.leak_byte_loop
  rw [run_loop_of_inv _ (fun run k st => spectre_v1.speculative_round_inv text timer run k st)
    100 0 0 LoopState.init ScoreInv_init (by omega)]
  simp only
  have hbest : (rounds_no_break (spectre_v1.round text timer) 100 0 LoopState.init).best_value
      = text.mem index := by
    have hs := key
    rw [rounds_no_break_succ] at hs ⊢
    rw [spectre_v1.speculative_round_best]
    apply top_two_best_eq _ _ (by rw [hs.1.2.1]; exact hb256)
    intro i _ hib
    have := hs.2.2.1 hdiff
    rw [hs.2.1 i hib]
    omega
  rw [hbest]
  exact toChar_of_le _ hb

theorem spectre_v1.rounds_best (text : string_view) (timer : Nat → Nat → Int) (n : Nat) :
    (rounds_no_break (spectre_v1.round text timer) (n + 1) 0 LoopState.init).best_value =
      (top_two_indices
        (rounds_no_break (spectre_v1.round text timer) (n + 1) 0 LoopState.init).scores).1 := by
  rw [rounds_no_break_succ, spectre_v1.speculative_round_best]

/-- Witness of C3 as amended: the safe view "Hello" of length 5 and the target index 8,
3 bytes past its end, where the adjacent byte 'S' = 83 lies; 83 is recovered, and 8 fails
the range check against the view. -/
theorem spectre_v1.speculative_mode_recovers_witness :
    spectre_v1.leak_byte spectre_v1.view_hello 8
      (spectre_v1.ideal_timer spectre_v1.view_hello 8 10 200) = 83 ∧
    ¬ ((8 : Int) < (spectre_v1.view_hello.size : Int)) :=
  ⟨spectre_v1.speculative_mode_recovers spectre_v1.view_hello 8 10 200
      (spectre_v1.ideal_timer spectre_v1.view_hello 8 10 200)
      (by decide) (by decide) (by decide) (by decide) (by decide)
      (fun _ _ _ _ => rfl) (by decide!) ⟨0, by decide, by decide⟩,
   by decide⟩

/-- C3 (counterexample): the safe view "AAAAA" of length 5 with the target index 8, 3 bytes
past its end, where the adjacent byte is 'A' = 65. The slot of 65, which is the target
slot and every round's training slot, measures 10 cycles and all other slots 200, 10 is
below every round's threshold, and yet `leak_byte` returns 0, not 65. -/
theorem spectre_v1.speculative_mode_same_byte :
    0 < spectre_v1.view_same_bytes.size ∧
    (spectre_v1.view_same_bytes.size : Int) ≤ 8 ∧
    spectre_v1.view_same_bytes.mem 8 = 65 ∧
    (∀ run, run < 100 → (10 : Int) <
      Int.tdiv (spectre_v1.avg_latency ((List.range 256).map
        (spectre_v1.ideal_timer spectre_v1.view_same_bytes 8 10 200 run)) * 3) 4) ∧
    spectre_v1.leak_byte spectre_v1.view_same_bytes 8
      (spectre_v1.ideal_timer spectre_v1.view_same_bytes 8 10 200) = 0 ∧
    spectre_v1.leak_byte spectre_v1.view_same_bytes 8
      (spectre_v1.ideal_timer spectre_v1.view_same_bytes 8 10 200) ≠
        (spectre_v1.view_same_bytes.mem 8 : Int) := by
  have hthr : ∀ run, run < 100 → (10 : Int) <
      Int.tdiv (spectre_v1.avg_latency ((List.range 256).map
        (spectre_v1.ideal_timer spectre_v1.view_same_bytes 8 10 200 run)) * 3) 4 := by
    decide!
  have hsame : ∀ r, r < 100 →
      spectre_v1.view_same_bytes.data (spectre_v1.safe_index spectre_v1.view_same_bytes r) =
        spectre_v1.view_same_bytes.data 8 := by
    decide!
  have key := spectre_v1.speculative_rounds_ideal spectre_v1.view_same_bytes 8
    (spectre_v1.ideal_timer spectre_v1.view_same_bytes 8 10 200) 65 10 200
    (by decide) (by decide) (by decide) (by decide) (fun _ _ _ _ => rfl) hthr 100 (le_refl _)
  have hzero : spectre_v1.leak_byte spectre_v1.view_same_bytes 8
      (spectre_v1.ideal_timer spectre_v1.view_same_bytes 8 10 200) = 0 := by
    unfold spectre_v1.leak_byte spectre_v1.leak_byte_loop
    rw [run_loop_of_inv (spectre_v1.round spectre_v1.view_same_bytes
        (spectre_v1.ideal_timer spectre_v1.view_same_bytes 8 10 200))
      (fun run k st => spectre_v1.speculative_round_inv _ _ run k st)
      100 0 0 LoopState.init ScoreInv_init (by omega)]
    simp only
    have hall : ∀ j, arr_get (rounds_no_break (spectre_v1.round spectre_v1.view_same_bytes
        (spectre_v1.ideal_timer spectre_v1.view_same_bytes 8 10 200)) 100 0
        LoopState.init).scores j = 0 := by
      intro j
      by_cases hj : j = 65
      · rw [hj]
        exact key.2.2.2 hsame
      · exact key.2.1 j hj
    rw [spectre_v1.rounds_best _ _ 99, top_two_best_zero _ (fun i => by rw [hall i, hall 0])]
    rfl
  refine ⟨by decide, by decide, by decide, hthr, hzero, ?_⟩
  rw [hzero]
  decide

/-- C11 (fails on the code): for the byte value 233, stored at `text[0]`, the offset
`data[index] * stride` that the encode step reads is `-11776`, not `233 * 512`, and lies
below `timing_array`; for every byte value `v` in `128..255` the offset is
`(v - 256) * 512`, because `data[index]` is a signed `char`. -/
theorem touched_offset_negative :
    touched_offset (string_view.ofBytes [233] []) 0 = -11776 ∧
    touched_offset (string_view.ofBytes [233] []) 0 ≠ 233 * 512 ∧
    ¬ (0 ≤ touched_offset (string_view.ofBytes [233] []) 0) ∧
    (∀ v : Nat, 128 ≤ v → v < 256 →
      touched_offset (string_view.ofBytes [v] []) 0 = ((v : Int) - 256) * 512) := by
  refine ⟨by decide, by decide, by decide, ?_⟩
  intro v h1 h2
  have hm : (string_view.ofBytes [v] []).mem 0 = v := by
    simp [string_view.ofBytes]
  unfold touched_offset string_view.data stride
  rw [hm]
  unfold toChar
  congr 1
  omega

/-- C12 (counterexample): slots 0 and 8 are distinct slots of the probe array and their
offsets `512*0` and `512*8` map to the same cache set, set 0. -/
theorem cache_set_shared :
    (0 : Nat) ≠ 8 ∧ (0 : Nat) < 256 ∧ (8 : Nat) < 256 ∧
    cache_set (stride * ((0 : Nat) : Int)) = cache_set (stride * ((8 : Nat) : Int)) ∧
    cache_set (stride * ((8 : Nat) : Int)) = 0 := by
  decide

/-- C12 as amended: under the documented geometry and stride 512, two slots `i` and `j`
map to the same cache set exactly when `i` and `j` are congruent modulo 8, and they lie on
the same cache line only when `i = j`. -/
theorem cache_set_modulo_eight (i j : Nat) :
    (cache_set (stride * (i : Int)) = cache_set (stride * (j : Int)) ↔ i % 8 = j % 8) ∧
    (stride * (i : Int) / 64 = stride * (j : Int) / 64 ↔ i = j) := by
  unfold cache_set stride
  constructor <;> omega

/-- C13 (fails on the code): with selector 0 (the 5-character buffer "Hello") and the
requested length 6, `main` of `leak.cpp` writes no 'buffer is only' diagnostic, writes 6
characters to `std::cout` and exits with code 0; and no run at all ends with the
'buffer is only' diagnostic, because `text.size() - length < 0` compares a `size_t`. -/
theorem leak.length_check_dead :
    (leak.text_table.getD 0 "").length = 5 ∧
    leak.main [0, 6] =
      leak.Run.exited 0 [leak.Diagnostic.text_buffer_index 0, leak.Diagnostic.length 6]
        (some (0, 6)) ∧
    (∀ args code err out n, leak.main args = leak.Run.exited code err out →
      leak.Diagnostic.buffer_is_only n ∉ err) := by
  refine ⟨by decide, by decide, ?_⟩
  intro args code err out n h
  have hw : ∀ x : Int, ¬ (wrapU64 x < 0) := by
    intro x
    unfold wrapU64
    omega
  unfold leak.main at h
  simp only at h
  generalize (if args.length + 1 > 1 then args.getD 0 0 else 0) = ti at h
  generalize (if args.length + 1 > 2 then args.getD 1 0
    else ((leak.text_table.getD ti.toNat "").length : Int)) = len at h
  by_cases c1 : ti > 1
  · rw [if_pos c1] at h
    injection h with _ he _
    subst he
    simp
  · rw [if_neg c1] at h
    by_cases c2 : ti < 0
    · rw [if_pos c2] at h
      cases h
    · rw [if_neg c2, if_neg (hw _)] at h
      injection h with _ he _
      subst he
      simp

/-- C14 (fails on the code): with the negative selector `-1`, `main` of `leak.cpp` writes
no 'only two buffers are public' diagnostic and does not exit: it goes on to evaluate
`text_table[-1]`, outside the table. The same holds of every negative selector. -/
theorem leak.negative_selector_indexes_table :
    leak.main [-1] =
      leak.Run.undefined_table_read (-1) [leak.Diagnostic.text_buffer_index (-1)] ∧
    (∀ (selector : Int) (more : List Int), selector < 0 →
      leak.main (selector :: more) =
        leak.Run.undefined_table_read selector [leak.Diagnostic.text_buffer_index selector]) := by
  refine ⟨by decide, ?_⟩
  intro selector more h
  unfold leak.main
  simp only [List.length_cons, List.getD_cons_zero]
  have h1 : more.length + 1 + 1 > 1 := by omega
  have h2 : ¬ selector > 1 := by omega
  simp only [h1, if_true, h2, if_false, h]

/-- C16: in the 500-iteration inner loop of a round of the speculative variant, the
chosen index `local_index` is the target index when `i+1` is a multiple of 10 and the safe
index otherwise; 50 of the 500 iterations choose the target and 450 the safe index (so the
target index occurs 50 times among the chosen indices when it differs from the safe
index); and an iteration that chooses the target is preceded by 9 iterations that choose
the safe index, before which comes the previous use of the target or the start of the
loop. -/
theorem spectre_v1.training_cadence (text : string_view) (index : Int) (run : Nat) :
    (∀ i, spectre_v1.local_index text index run i =
      if (i + 1) % 10 = 0 then index else (spectre_v1.safe_index text run : Int)) ∧
    ((List.range 500).filter (fun i => decide ((i + 1) % 10 = 0))).length = 50 ∧
    ((List.range 500).filter (fun i => decide ((i + 1) % 10 ≠ 0))).length = 450 ∧
    (index ≠ (spectre_v1.safe_index text run : Int) →
      ((List.range 500).map (spectre_v1.local_index text index run)).count index = 50) ∧
    (∀ i, i < 500 → (i + 1) % 10 = 0 →
      9 ≤ i ∧
      (∀ d, 1 ≤ d → d ≤ 9 →
        spectre_v1.local_index text index run (i - d) = (spectre_v1.safe_index text run : Int)) ∧
      (10 ≤ i → spectre_v1.local_index text index run (i - 10) = index)) := by
  have hloc : ∀ i, spectre_v1.local_index text index run i =
      if (i + 1) % 10 = 0 then index else (spectre_v1.safe_index text run : Int) := by
    intro i
    unfold spectre_v1.local_index
    by_cases h : (i + 1) % 10 = 0
    · rw [if_pos h, if_neg (fun hh => hh h)]
    · rw [if_neg h, if_pos h]
  have h50 : ((List.range 500).filter (fun i => decide ((i + 1) % 10 = 0))).length = 50 := by
    decide!
  refine ⟨hloc, h50, by decide!, ?_, ?_⟩
  · intro hne
    rw [List.count_eq_countP, List.countP_map, List.countP_eq_length_filter]
    refine (congrArg List.length (List.filter_congr ?_)).trans h50
    intro i _
    simp only [Function.comp_apply, hloc i]
    by_cases h : (i + 1) % 10 = 0
    · simp [h]
    · simp only [h, if_false, decide_False, beq_eq_false_iff_ne, ne_eq]
      exact fun hh => hne hh.symm
  · intro i _ hi
    refine ⟨by omega, ?_, ?_⟩
    · intro d hd1 hd9
      rw [hloc, if_neg (by omega)]
    · intro h10
      rw [hloc, if_pos (by omega)]

/-- Witness of C16: round 0 on "Hello GitHub" with the target index 13; the safe index is
0, and 13 is chosen in 50 of the 500 iterations. -/
theorem spectre_v1.training_cadence_witness :
    ((List.range 500).map
      (spectre_v1.local_index spectre_v1.text_table_1 13 0)).count 13 = 50 :=
  (spectre_v1.training_cadence spectre_v1.text_table_1 13 0).2.2.2.1 (by decide)

/-- C17: for a non-empty `text`, `safe_index = run % text.size()` lies in
`0..text.size()-1` in every round; it is 0 in round 0, equals the round number in the
first `text.size()` rounds, and from one round to the next it moves one position up,
wrapping from the last position to 0. -/
theorem spectre_v1.safe_index_cycles (text : string_view) (run : Nat) (h : 0 < text.size) :
    spectre_v1.safe_index text run < text.size ∧
    spectre_v1.safe_index text 0 = 0 ∧
    (run < text.size → spectre_v1.safe_index text run = run) ∧
    spectre_v1.safe_index text (run + 1) =
      (if spectre_v1.safe_index text run + 1 = text.size then 0
       else spectre_v1.safe_index text run + 1) ∧
    spectre_v1.safe_index text (run + text.size) = spectre_v1.safe_index text run := by
  unfold spectre_v1.safe_index
  refine ⟨Nat.mod_lt _ h, Nat.zero_mod _, fun hr => Nat.mod_eq_of_lt hr, ?_, Nat.add_mod_right _ _⟩
  have hlt := Nat.mod_lt run h
  by_cases hw : run % text.size + 1 = text.size
  · rw [if_pos hw, Nat.add_mod]
    have h1 : 1 % text.size ≤ 1 := Nat.mod_le _ _
    by_cases hs : text.size = 1
    · rw [hs]; simp [Nat.mod_one]
    · have h1' : 1 % text.size = 1 := Nat.mod_eq_of_lt (by omega)
      rw [h1', hw, Nat.mod_self]
  · rw [if_neg hw, Nat.add_mod]
    have h1' : 1 % text.size = 1 := Nat.mod_eq_of_lt (by omega)
    rw [h1']
    exact Nat.mod_eq_of_lt (by omega)

/-- Witness of C17: on "Hello GitHub" (12 characters) round 11 uses position 11 and round
12 wraps to position 0. -/
theorem spectre_v1.safe_index_cycles_witness :
    spectre_v1.safe_index spectre_v1.text_table_1 11 < 12 ∧
    spectre_v1.safe_index spectre_v1.text_table_1 11 = 11 ∧
    spectre_v1.safe_index spectre_v1.text_table_1 12 = 0 :=
  ⟨(spectre_v1.safe_index_cycles spectre_v1.text_table_1 11 (by decide)).1,
   (spectre_v1.safe_index_cycles spectre_v1.text_table_1 11 (by decide)).2.2.1 (by decide),
   by decide⟩

theorem tdiv_nonpos_left (a b : Int) (ha : a ≤ 0) (hb : 0 ≤ b) : Int.tdiv a b ≤ 0 := by
  have h := Int.tdiv_nonneg (a := -a) (b := b) (by omega) hb
  rw [Int.neg_tdiv] at h
  omega

theorem list_sum_nonneg (l : List Int) (h : ∀ x, x ∈ l → 0 ≤ x) : 0 ≤ l.sum := by
  induction l with
  | nil => simp
  | cons a l ih =>
    have ha := h a (List.mem_cons_self a l)
    have hl := ih (fun x hx => h x (List.mem_cons_of_mem a hx))
    rw [List.sum_cons]
    omega

theorem arr_get_nonneg (l : List Int) (h : ∀ x, x ∈ l → 0 ≤ x) (i : Nat) : 0 ≤ arr_get l i := by
  by_cases hi : i < l.length
  · unfold arr_get
    rw [List.getD_eq_getElem?_getD, List.getElem?_eq_getElem hi]
    exact h _ (List.getElem_mem hi)
  · rw [arr_get_of_length_le l i (by omega)]

theorem side_channel.direct_threshold_le_exact (lat : List Int) (hnn : ∀ x, x ∈ lat → 0 ≤ x)
    (x : Int) (hx : 0 ≤ x)
    (hlt : x < Int.tdiv (side_channel.avg_latency lat * 3) 4) :
    4 * 256 * x < 3 * lat.sum := by
  have hS := list_sum_nonneg lat hnn
  unfold side_channel.avg_latency at hlt
  rw [side_channel.direct_accumulate_eq] at hlt
  have e : ((timing_array_size : Nat) : Int) = 256 := rfl
  rw [e] at hlt
  have hle : wrapI64 lat.sum ≤ lat.sum := by
    unfold wrapI64
    norm_num
    omega
  by_cases h0 : 0 ≤ wrapI64 lat.sum
  · rw [Int.tdiv_eq_ediv h0 (by norm_num)] at hlt
    have h1 : 0 ≤ wrapI64 lat.sum / 256 := Int.ediv_nonneg h0 (by norm_num)
    rw [Int.tdiv_eq_ediv (by omega) (by norm_num)] at hlt
    omega
  · exfalso
    have h1 := tdiv_nonpos_left (wrapI64 lat.sum) 256 (by omega) (by norm_num)
    have h2 := tdiv_nonpos_left (Int.tdiv (wrapI64 lat.sum) 256 * 3) 4 (by omega) (by norm_num)
    omega

theorem spectre_v1.speculative_threshold_le_exact (lat : List Int) (hnn : ∀ x, x ∈ lat → 0 ≤ x)
    (x : Int) (hlt : x < Int.tdiv (spectre_v1.avg_latency lat * 3) 4) :
    4 * 256 * x < 3 * lat.sum := by
  have hS := list_sum_nonneg lat hnn
  unfold spectre_v1.avg_latency at hlt
  rw [spectre_v1.speculative_accumulate_eq] at hlt
  have e : ((timing_array_size : Nat) : Int) = 256 := rfl
  rw [e] at hlt
  have hU : 0 ≤ wrapU64 lat.sum ∧ wrapU64 lat.sum ≤ lat.sum ∧ wrapU64 lat.sum < 2 ^ 64 := by
    unfold wrapU64
    norm_num
    omega
  have h1 : 0 ≤ wrapU64 lat.sum / 256 := Int.ediv_nonneg hU.1 (by norm_num)
  have h2 : wrapU64 lat.sum / 256 < 2 ^ 63 := by
    have := hU.2.2
    norm_num at this ⊢
    omega
  rw [wrapI64_of_range _ (by omega) h2, Int.tdiv_eq_ediv (by omega) (by norm_num)] at hlt
  omega

/-- C19: for an array of 256 non-negative latencies with sum `S`, a slot `i` whose latency
is below the threshold `((S/256)*3)/4` that the score step of either variant computes (in
64-bit arithmetic with truncating division) satisfies `4*256*latencies[i] < 3*S`; so does
every slot whose scoreboard entry the score step increments. -/
theorem hit_below_exact_mean (text : string_view) (run : Nat) (lat sc : List Int) (i : Nat)
    (hlen : lat.length = 256) (hnn : ∀ x, x ∈ lat → 0 ≤ x) :
    (arr_get lat i < Int.tdiv (side_channel.avg_latency lat * 3) 4 →
      4 * 256 * arr_get lat i < 3 * lat.sum) ∧
    (arr_get lat i < Int.tdiv (spectre_v1.avg_latency lat * 3) 4 →
      4 * 256 * arr_get lat i < 3 * lat.sum) ∧
    (arr_get (side_channel.score_step lat sc) i = arr_get sc i + 1 →
      4 * 256 * arr_get lat i < 3 * lat.sum) ∧
    (arr_get (spectre_v1.score_step text run lat sc) i = arr_get sc i + 1 →
      4 * 256 * arr_get lat i < 3 * lat.sum) := by
  have _ := hlen
  have d := side_channel.direct_threshold_le_exact lat hnn (arr_get lat i) (arr_get_nonneg lat hnn i)
  have s := spectre_v1.speculative_threshold_le_exact lat hnn (arr_get lat i)
  refine ⟨d, s, ?_, ?_⟩
  · intro h
    rw [(side_channel.direct_score_step_spec lat sc).2 i] at h
    by_cases c : i < 256 ∧ i < sc.length ∧
        arr_get lat i < Int.tdiv (side_channel.avg_latency lat * 3) 4
    · exact d c.2.2
    · rw [if_neg c] at h
      omega
  · intro h
    rw [(spectre_v1.speculative_score_step_spec text run lat sc).2 i] at h
    by_cases c : i < 256 ∧ i < sc.length ∧
        (arr_get lat i < Int.tdiv (spectre_v1.avg_latency lat * 3) 4 ∧
          (i : Int) ≠ text.data (spectre_v1.safe_index text run))
    · exact s c.2.2.1
    · rw [if_neg c] at h
      omega

/-- Witness of C19: slot 65 at 10 cycles and every other slot at 200; slot 65 is below the
direct-mode threshold and `4*256*10 < 3*S`. -/
theorem hit_below_exact_mean_witness :
    4 * 256 * arr_get ((List.range 256).map (fun s => if s = 65 then (10 : Int) else 200)) 65 <
      3 * ((List.range 256).map (fun s => if s = 65 then (10 : Int) else 200)).sum :=
  (hit_below_exact_mean spectre_v1.text_table_1 0
    ((List.range 256).map (fun s => if s = 65 then (10 : Int) else 200)) arr_zero 65
    (by simp)
    (fun x hx => by
      obtain ⟨s, _, rfl⟩ := List.mem_map.mp hx
      split <;> omega)).1 (by decide!)

/-- C15: in both variants a round leaves every scoreboard entry unchanged or increases it
by exactly one; from round to round an entry never decreases; after `r` rounds every
entry lies between 0 and `r`; and `leak_byte` ends in the state after 100 rounds, where
every entry is at most 100. -/
theorem scoreboard_invariant (text : string_view) (timer : Nat → Nat → Int) (run r i : Nat)
    (st : LoopState) :
    (arr_get (side_channel.round timer run st).scores i = arr_get st.scores i ∨
      arr_get (side_channel.round timer run st).scores i = arr_get st.scores i + 1) ∧
    (arr_get (spectre_v1.round text timer run st).scores i = arr_get st.scores i ∨
      arr_get (spectre_v1.round text timer run st).scores i = arr_get st.scores i + 1) ∧
    (0 ≤ arr_get (rounds_no_break (side_channel.round timer) r 0 LoopState.init).scores i ∧
      arr_get (rounds_no_break (side_channel.round timer) r 0 LoopState.init).scores i ≤ r ∧
      arr_get (rounds_no_break (side_channel.round timer) r 0 LoopState.init).scores i ≤
        arr_get (rounds_no_break (side_channel.round timer) (r + 1) 0 LoopState.init).scores i) ∧
    (0 ≤ arr_get (rounds_no_break (spectre_v1.round text timer) r 0 LoopState.init).scores i ∧
      arr_get (rounds_no_break (spectre_v1.round text timer) r 0 LoopState.init).scores i ≤ r ∧
      arr_get (rounds_no_break (spectre_v1.round text timer) r 0 LoopState.init).scores i ≤
        arr_get
          (rounds_no_break (spectre_v1.round text timer) (r + 1) 0 LoopState.init).scores i) ∧
    ((side_channel.leak_byte_loop timer).state =
        rounds_no_break (side_channel.round timer) 100 0 LoopState.init ∧
      arr_get (side_channel.leak_byte_loop timer).state.scores i ≤ 100) ∧
    ((spectre_v1.leak_byte_loop text timer).state =
        rounds_no_break (spectre_v1.round text timer) 100 0 LoopState.init ∧
      arr_get (spectre_v1.leak_byte_loop text timer).state.scores i ≤ 100) := by
  have hd : ∀ (run : Nat) (st : LoopState),
      arr_get (side_channel.round timer run st).scores i = arr_get st.scores i ∨
      arr_get (side_channel.round timer run st).scores i = arr_get st.scores i + 1 := by
    intro run st
    rw [side_channel.direct_round_scores, (side_channel.direct_score_step_spec _ _).2 i]
    split
    · exact Or.inr rfl
    · exact Or.inl rfl
  have hs : ∀ (run : Nat) (st : LoopState),
      arr_get (spectre_v1.round text timer run st).scores i = arr_get st.scores i ∨
      arr_get (spectre_v1.round text timer run st).scores i = arr_get st.scores i + 1 := by
    intro run st
    rw [spectre_v1.speculative_round_scores,
      (spectre_v1.speculative_score_step_spec _ _ _ _).2 i]
    split
    · exact Or.inr rfl
    · exact Or.inl rfl
  have bd : ∀ n, ScoreInv (0 + n)
      (rounds_no_break (side_channel.round timer) n 0 LoopState.init) := fun n =>
    rounds_no_break_inv _ (fun run k st => side_channel.direct_round_inv timer run k st)
      n 0 0 LoopState.init ScoreInv_init
  have bs : ∀ n, ScoreInv (0 + n)
      (rounds_no_break (spectre_v1.round text timer) n 0 LoopState.init) := fun n =>
    rounds_no_break_inv _ (fun run k st => spectre_v1.speculative_round_inv text timer run k st)
      n 0 0 LoopState.init ScoreInv_init
  have ed : (side_channel.leak_byte_loop timer).state =
      rounds_no_break (side_channel.round timer) 100 0 LoopState.init := by
    unfold side_channel.leak_byte_loop
    rw [run_loop_of_inv _ (fun run k st => side_channel.direct_round_inv timer run k st)
      100 0 0 LoopState.init ScoreInv_init (by omega)]
  have es : (spectre_v1.leak_byte_loop text timer).state =
      rounds_no_break (spectre_v1.round text timer) 100 0 LoopState.init := by
    unfold spectre_v1.leak_byte_loop
    rw [run_loop_of_inv _ (fun run k st => spectre_v1.speculative_round_inv text timer run k st)
      100 0 0 LoopState.init ScoreInv_init (by omega)]
  refine ⟨hd run st, hs run st, ⟨((bd r).2.2 i).1, ?_, ?_⟩, ⟨((bs r).2.2 i).1, ?_, ?_⟩,
    ⟨ed, ?_⟩, ⟨es, ?_⟩⟩
  · have := ((bd r).2.2 i).2
    rw [Nat.zero_add] at this
    exact this
  · rw [rounds_no_break_succ]
    rcases hd (0 + r) (rounds_no_break (side_channel.round timer) r 0 LoopState.init)
      with h | h <;> omega
  · have := ((bs r).2.2 i).2
    rw [Nat.zero_add] at this
    exact this
  · rw [rounds_no_break_succ]
    rcases hs (0 + r) (rounds_no_break (spectre_v1.round text timer) r 0 LoopState.init)
      with h | h <;> omega
  · rw [ed]
    have := ((bd 100).2.2 i).2
    exact_mod_cast this
  · rw [es]
    have := ((bs 100).2.2 i).2
    exact_mod_cast this

theorem side_channel.uniform_rounds_zero (n : Nat) :
    ScoreInv n (rounds_no_break (side_channel.round (fun _ _ => 7)) n 0 LoopState.init) ∧
    ∀ i, arr_get
      (rounds_no_break (side_channel.round (fun _ _ => 7)) n 0 LoopState.init).scores i = 0 := by
  induction n with
  | zero => exact ⟨ScoreInv_init, arr_get_zero⟩
  | succ n ih =>
    rw [rounds_no_break_succ]
    refine ⟨side_channel.direct_round_inv _ _ _ _ ih.1, ?_⟩
    intro i
    rw [side_channel.direct_round_scores, (side_channel.direct_score_step_spec _ _).2 i,
      measure_step_eq _ _ _ ih.1.1]
    have hthr : Int.tdiv (side_channel.avg_latency
        ((List.range 256).map (fun _ => (7 : Int))) * 3) 4 = 5 := by
      decide!
    rw [hthr, if_neg, ih.2 i]
    rintro ⟨hi, _, hlow⟩
    rw [arr_get_map_range _ _ _ hi] at hlow
    omega

/-- C18: on a non-empty scoreboard the first index that `top_two_indices` returns is a
valid index, its entry is the maximum, and no smaller index holds that maximum; and when
every scoreboard entry is 0 after the last round, `leak_byte` of either variant
returns 0. -/
theorem best_is_first_maximum (range : List Int) (text : string_view) (index : Int)
    (timer : Nat → Nat → Int) (hlen : 0 < range.length) :
    ((top_two_indices range).1 < range.length ∧
      (∀ t, t < range.length → arr_get range t ≤ arr_get range (top_two_indices range).1) ∧
      (∀ t, t < range.length → arr_get range t = arr_get range (top_two_indices range).1 →
        (top_two_indices range).1 ≤ t)) ∧
    ((∀ i, arr_get (side_channel.leak_byte_loop timer).state.scores i = 0) →
      side_channel.leak_byte text index timer = 0) ∧
    ((∀ i, arr_get (spectre_v1.leak_byte_loop text timer).state.scores i = 0) →
      spectre_v1.leak_byte text index timer = 0) := by
  refine ⟨⟨(top_two_lt range hlen).1, fun t ht => top_two_best_ge range t ht, ?_⟩, ?_, ?_⟩
  · intro t _ he
    by_contra hlt
    have h1 := (top_two_upto range range.length).2.2.2.1 t (by
      unfold top_two_indices at hlt
      omega)
    unfold top_two_indices at he
    simp only at h1
    omega
  · intro hz
    have hst : (side_channel.leak_byte_loop timer).state =
        side_channel.round timer (0 + 99)
          (rounds_no_break (side_channel.round timer) 99 0 LoopState.init) := by
      unfold side_channel.leak_byte_loop
      rw [run_loop_of_inv _ (fun run k st => side_channel.direct_round_inv timer run k st)
        100 0 0 LoopState.init ScoreInv_init (by omega), rounds_no_break_succ]
    unfold side_channel.leak_byte
    rw [hst] at hz ⊢
    rw [side_channel.direct_round_best, top_two_best_zero _ (fun i => by rw [hz i, hz 0])]
    rfl
  · intro hz
    have hst : (spectre_v1.leak_byte_loop text timer).state =
        spectre_v1.round text timer (0 + 99)
          (rounds_no_break (spectre_v1.round text timer) 99 0 LoopState.init) := by
      unfold spectre_v1.leak_byte_loop
      rw [run_loop_of_inv _
        (fun run k st => spectre_v1.speculative_round_inv text timer run k st)
        100 0 0 LoopState.init ScoreInv_init (by omega), rounds_no_break_succ]
    unfold spectre_v1.leak_byte
    rw [hst] at hz ⊢
    rw [spectre_v1.speculative_round_best, top_two_best_zero _ (fun i => by rw [hz i, hz 0])]
    rfl

/-- Witness of C18: on the scoreboard with 3 at slots 65 and 70 the first index returned
is at most 65; and with every slot measured at 7 cycles in every round no slot is ever
scored and direct-mode `leak_byte` returns 0. -/
theorem best_is_first_maximum_witness :
    (arr_get (arr_set (arr_set arr_zero 65 3) 70 3) 65 =
        arr_get (arr_set (arr_set arr_zero 65 3) 70 3)
          (top_two_indices (arr_set (arr_set arr_zero 65 3) 70 3)).1 →
      (top_two_indices (arr_set (arr_set arr_zero 65 3) 70 3)).1 ≤ 65) ∧
    side_channel.leak_byte spectre_v1.text_table_1 13 (fun _ _ => 7) = 0 :=
  ⟨(best_is_first_maximum (arr_set (arr_set arr_zero 65 3) 70 3) spectre_v1.text_table_1 13
      (fun _ _ => 7) (by decide!)).1.2.2 65 (by decide!),
   (best_is_first_maximum (arr_set (arr_set arr_zero 65 3) 70 3) spectre_v1.text_table_1 13
      (fun _ _ => 7) (by decide!)).2.1
      (fun i => by
        have e : (side_channel.leak_byte_loop (fun _ _ => 7)).state =
            rounds_no_break (side_channel.round (fun _ _ => 7)) 100 0 LoopState.init := by
          unfold side_channel.leak_byte_loop
          rw [run_loop_of_inv _
            (fun run k st => side_channel.direct_round_inv (fun _ _ => 7) run k st)
            100 0 0 LoopState.init ScoreInv_init (by omega)]
        rw [e]
        exact (side_channel.uniform_rounds_zero 100).2 i)⟩
